import Mathlib

/-!
Verification of the `sharon` key-value layer (hashmap and sorted set over an
ordered byte-keyed store).

The external store (goleveldb) is modelled as an association list of
(key, value) pairs of byte strings, kept sorted in strictly ascending
byte-lexicographic key order; point reads, point writes, batched writes and
forward/backward range iteration are modelled as pure functions on that list.
Bytes are modelled as `Nat` (valid stores carry bytes `< 256`).
-/

namespace Sharon

/-- A byte string: a list of bytes (each `< 256` in well-formed data). -/
abbrev Bytes := List Nat

/-- All bytes of a byte string are genuine bytes. -/
abbrev ValidBytes (b : Bytes) : Prop := ∀ x ∈ b, x < 256

/-- `bytes.Compare(a, b) == -1` of Go: strict byte-lexicographic order,
with a proper prefix ordered before its extensions. -/
def lexLt : Bytes → Bytes → Bool
  | [], [] => false
  | [], _ :: _ => true
  | _ :: _, [] => false
  | a :: as, b :: bs => if a < b then true else if b < a then false else lexLt as bs

/-- `bytes.Compare(a, b) <= 0` of Go. -/
def lexLe (a b : Bytes) : Bool := !(lexLt b a)

/-- `Bconcat` of the source: concatenation of a list of byte fragments. -/
def Bconcat : List Bytes → Bytes
  | [] => []
  | s :: rest => s ++ Bconcat rest

/-- The external ordered store: association list sorted by `lexLt` on keys. -/
abbrev Store := List (Bytes × Bytes)

/-- The sortedness invariant goleveldb guarantees for its key space. -/
abbrev SortedStore (st : Store) : Prop :=
  List.Pairwise (fun a b => lexLt a.1 b.1 = true) st

/-- Every key and value in the store is made of genuine bytes. -/
abbrev ValidStore (st : Store) : Prop := ∀ e ∈ st, ValidBytes e.1

/-- Point read (`db.Get`): `none` plays goleveldb's not-found error. -/
def sget : Store → Bytes → Option Bytes
  | [], _ => none
  | (k, v) :: rest, key => if key = k then some v else sget rest key

/-- Point write (`db.Put`): insert or replace, keeping keys sorted. -/
def sput : Store → Bytes → Bytes → Store
  | [], key, val => [(key, val)]
  | (k, v) :: rest, key, val =>
    if lexLt key k then (key, val) :: (k, v) :: rest
    else if key = k then (key, val) :: rest
    else (k, v) :: sput rest key val

/-- Point delete (`db.Delete`): removing an absent key is a no-op. -/
def sdel : Store → Bytes → Store
  | [], _ => []
  | (k, v) :: rest, key => if key = k then rest else (k, v) :: sdel rest key

/-- One operation of a leveldb write batch. -/
inductive BatchOp where
  | bput (key val : Bytes)
  | bdel (key : Bytes)
deriving DecidableEq

/-- `db.Write(batch)`: a batch is replayed in order, later ops win. -/
def writeBatch (st : Store) (ops : List BatchOp) : Store :=
  ops.foldl (fun s op => match op with
    | .bput k v => sput s k v
    | .bdel k => sdel s k) st

/-- `util.BytesPrefix(p).Limit` of goleveldb: increment the last byte `< 0xff`
dropping what follows; `none` (no upper bound) when every byte is `0xff`. -/
def bytesPfxLimit (p : Bytes) : Option Bytes :=
  match p.reverse.dropWhile (fun c => 255 ≤ c) with
  | [] => none
  | c :: rest => some (((c + 1) :: rest).reverse)

/-- Membership of a key in an iterator range `[start, lim)`
(`lim = none` means unbounded above). -/
def inRange (start : Bytes) (lim : Option Bytes) (k : Bytes) : Bool :=
  lexLe start k && match lim with
    | some q => lexLt k q
    | none => true

/-- The keys a goleveldb iterator visits, in ascending order
(`filter` of a sorted store preserves order). -/
def rangeKeys (st : Store) (start : Bytes) (lim : Option Bytes) : Store :=
  st.filter (fun e => inRange start lim e.1)

/-! ### Byte encoding utilities (`Uint64ToBytes`, `BytesToUint64`) -/

/-- `Uint64ToBytes`: 8-byte big-endian encoding of a 64-bit value. -/
def Uint64ToBytes (v : Nat) : Bytes :=
  [v / 2 ^ 56 % 256, v / 2 ^ 48 % 256, v / 2 ^ 40 % 256, v / 2 ^ 32 % 256,
   v / 2 ^ 24 % 256, v / 2 ^ 16 % 256, v / 2 ^ 8 % 256, v % 256]

/-- Big-endian value of a digit string in base 256. -/
def fromDigits (l : Bytes) : Nat := l.foldl (fun acc b => acc * 256 + b) 0

/-- `BytesToUint64`: big-endian decode of the first 8 bytes, `0` when the
buffer is shorter than 8 bytes. -/
def BytesToUint64 (v : Bytes) : Nat :=
  if v.length < 8 then 0 else fromDigits (v.take 8)

/-! ### Key space constants and the `Reply` result view -/

def hashPfx : Bytes := [30]
def zetKeyPfx : Bytes := [31]
def zetScorePfx : Bytes := [29]
def splitChar : Bytes := [28]

def replyOK : String := "ok"
def replyNotFound : String := "leveldb: not found"
def replyError : String := "error"

/-- `scoreMax = math.MaxUint64`. -/
def scoreMax : Nat := 2 ^ 64 - 1

/-- `Reply`: a status string plus a flat list of byte buffers. -/
structure Reply where
  State : String
  Data : List Bytes
deriving DecidableEq

/-- `Entry`: a key-value pair as returned by `Reply.List`. -/
structure Entry where
  Key : Bytes
  Value : Bytes
deriving DecidableEq

def Reply.OK (r : Reply) : Bool := r.State == replyOK

def Reply.NotFound (r : Reply) : Bool := r.State == replyNotFound

/-- Pair up the flat data (the loop of the source's `Reply.List`):
a trailing odd element is dropped. -/
def pairUp : List Bytes → List Entry
  | a :: b :: rest => ⟨a, b⟩ :: pairUp rest
  | _ => []

def Reply.List (r : Reply) : List Entry := pairUp r.Data

def Reply.KvLen (r : Reply) : Nat := r.Data.length / 2

/-! ### Hashmap engine

A hashmap entry for `(name, key)` lives at `hashPfx ‖ name ‖ splitChar ‖ key`.
The store being pure, the only point-read failure the model can produce is
not-found (`sget = none`); goleveldb I/O errors have no pure counterpart. -/

/-- The composite key `Bconcat(hashPrefix, name, splitChar, key)`. -/
def hkey (name key : Bytes) : Bytes := Bconcat [hashPfx, name, splitChar, key]

/-- `Hset`: unconditional point write. -/
def Hset (st : Store) (name key val : Bytes) : Store := sput st (hkey name key) val

/-- `Hget`: point read; a failed read surfaces the error string as the state. -/
def Hget (st : Store) (name key : Bytes) : Reply :=
  match sget st (hkey name key) with
  | none => ⟨replyNotFound, []⟩
  | some val => ⟨replyOK, [val]⟩

/-- Consecutive pairs of a flattened list (the `i, i+2` loops of the source);
a trailing odd element is dropped. -/
def kvPairs : List Bytes → List (Bytes × Bytes)
  | a :: b :: rest => (a, b) :: kvPairs rest
  | _ => []

/-- `Hmset`: validation, then all pairs in one batch. -/
def Hmset (st : Store) (name : Bytes) (kvs : List Bytes) : Except String Store :=
  if kvs.length = 0 ∨ kvs.length % 2 ≠ 0 then
    .error "kvs len must is an even number"
  else
    .ok (writeBatch st ((kvPairs kvs).map fun p =>
      .bput (Bconcat [Bconcat [hashPfx, name, splitChar], p.1]) p.2))

/-- The accumulation loop of `Hmget`/`Zmget`: failed reads are skipped. -/
def mgetLoop (st : Store) (keyPfx : Bytes) : List Bytes → List Bytes
  | [] => []
  | key :: rest =>
    match sget st (Bconcat [keyPfx, key]) with
    | none => mgetLoop st keyPfx rest
    | some val => key :: val :: mgetLoop st keyPfx rest

/-- `Hmget`: best-effort multi point read. -/
def Hmget (st : Store) (name : Bytes) (keys : List Bytes) : Reply :=
  let data := mgetLoop st (Bconcat [hashPfx, name, splitChar]) keys
  if data.length > 0 then ⟨replyOK, data⟩ else ⟨replyError, data⟩

/-- `Hincr`: read-modify-write of an 8-byte big-endian counter with
overflow/underflow detection.  `step` is a signed 64-bit integer; Go's
`uint64(step)` (for `step > 0`) and `uint64(-step)` (for `step <= 0`,
including `math.MinInt64` thanks to two's-complement wrap) are `Int.toNat`. -/
def Hincr (st : Store) (name key : Bytes) (step : Int) :
    Except String (Store × Nat) :=
  let realKey := hkey name key
  let oldNum : Nat :=
    match sget st realKey with
    | some val => BytesToUint64 val
    | none => 0
  if 0 < step then
    if scoreMax - step.toNat < oldNum then .error "overflow number"
    else
      let newNum := oldNum + step.toNat
      .ok (sput st realKey (Uint64ToBytes newNum), newNum)
  else
    if oldNum < (-step).toNat then .error "overflow number"
    else
      let newNum := oldNum - (-step).toNat
      .ok (sput st realKey (Uint64ToBytes newNum), newNum)

/-- The forward scan loop shared by `Hscan` and `Hprefix`: append the
prefix-stripped key and the value whenever `realKey < key`, stop once
`limit` pairs were appended (`n++; if n == limit break` in countdown form). -/
def hscanLoop (realKey : Bytes) (stripLen : Nat) :
    List (Bytes × Bytes) → Int → List Bytes
  | [], _ => []
  | (k, v) :: rest, limit =>
    if lexLt realKey k then
      k.drop stripLen :: v ::
        (if limit = 1 then [] else hscanLoop realKey stripLen rest (limit - 1))
    else hscanLoop realKey stripLen rest limit

/-- The reverse scan loop of `Hrscan`: no boundary comparison in the loop. -/
def hrscanLoop (stripLen : Nat) : List (Bytes × Bytes) → Int → List Bytes
  | [], _ => []
  | (k, v) :: rest, limit =>
    k.drop stripLen :: v ::
      (if limit = 1 then [] else hrscanLoop stripLen rest (limit - 1))

/-- `Hscan`: forward range listing over one bucket.  In the source, when
`keyStart` is empty both branches of the `if` leave `realKey` equal to the
range start `keyPrefix`, so the start is `realKey` in every case. -/
def Hscan (st : Store) (name keyStart : Bytes) (limit : Int) : Reply :=
  let keyPfx := Bconcat [hashPfx, name, splitChar]
  let realKey := Bconcat [keyPfx, keyStart]
  let data := hscanLoop realKey keyPfx.length
    (rangeKeys st realKey (bytesPfxLimit keyPfx)) limit
  if data.length > 0 then ⟨replyOK, data⟩ else ⟨replyError, data⟩

/-- `Hprefix`: forward listing under `keyPrefix ‖ prefix`; note the source
strips `keyPrefixLen = len(tag ‖ name ‖ sep ‖ prefix)` bytes, i.e. the
caller's member prefix is stripped along with the bucket encoding. -/
def Hprefix (st : Store) (name pfx : Bytes) (limit : Int) : Reply :=
  let realKey := Bconcat [hashPfx, name, splitChar, pfx]
  let data := hscanLoop realKey realKey.length
    (rangeKeys st realKey (bytesPfxLimit realKey)) limit
  if data.length > 0 then ⟨replyOK, data⟩ else ⟨replyError, data⟩

/-- `Hrscan`: reverse listing.  When `keyStart` is non-empty the range's
upper bound becomes `keyPrefix ‖ keyStart` (exclusive); iteration is
`Last/Prev`, i.e. the reverse of the ascending range. -/
def Hrscan (st : Store) (name keyStart : Bytes) (limit : Int) : Reply :=
  let keyPfx := Bconcat [hashPfx, name, splitChar]
  let realKey := Bconcat [keyPfx, keyStart]
  let lim : Option Bytes :=
    if keyPfx.length < realKey.length then some realKey else bytesPfxLimit keyPfx
  let data := hrscanLoop keyPfx.length ((rangeKeys st keyPfx lim).reverse) limit
  if data.length > 0 then ⟨replyOK, data⟩ else ⟨replyError, data⟩

/-! ### Sorted-set engine

Direct index: `zetScorePfx ‖ name ‖ sep ‖ member ↦ score(8 bytes)`.
Order index: `zetKeyPfx ‖ name ‖ sep ‖ score(8 bytes) ‖ sep ‖ member ↦ ∅`. -/

/-- Direct-index key of a member. -/
def zscoreKey (name member : Bytes) : Bytes :=
  Bconcat [zetScorePfx, name, splitChar, member]

/-- Order-index key built from raw score bytes (as the source does with the
bytes it read back, which may be `nil` for an absent member). -/
def zokeyB (name scoreB member : Bytes) : Bytes :=
  Bconcat [zetKeyPfx, name, splitChar, scoreB, splitChar, member]

/-- Order-index key of a member with a numeric score. -/
def zokey (name : Bytes) (s : Nat) (member : Bytes) : Bytes :=
  zokeyB name (Uint64ToBytes s) member

/-- `Zget`: current score, `0` when absent. -/
def Zget (st : Store) (name key : Bytes) : Nat :=
  match sget st (zscoreKey name key) with
  | none => 0
  | some val => BytesToUint64 val

/-- `Zset`: when the stored score bytes differ from the new ones, write the
direct entry, write the new order entry and delete the stale order entry in
one batch; `oldScore` is `nil` (here `[]`) when the member is absent. -/
def Zset (st : Store) (name key : Bytes) (val : Nat) : Store :=
  let score := Uint64ToBytes val
  let keyScore := zscoreKey name key
  let oldScore := (sget st keyScore).getD []
  if oldScore = score then st
  else
    writeBatch st
      [.bput keyScore score, .bput (zokeyB name score key) [],
       .bdel (zokeyB name oldScore key)]

/-- `Zincr`: same overflow policy as `Hincr`, then the three-way batch. -/
def Zincr (st : Store) (name key : Bytes) (step : Int) :
    Except String (Store × Nat) :=
  let keyScore := zscoreKey name key
  let score := Zget st name key
  let oldScoreB := Uint64ToBytes score
  let checked : Option Nat :=
    if 0 < step then
      if scoreMax - step.toNat < score then none else some (score + step.toNat)
    else
      if score < (-step).toNat then none else some (score - (-step).toNat)
  match checked with
  | none => .error "overflow number"
  | some s' =>
    let newScoreB := Uint64ToBytes s'
    .ok (writeBatch st
      [.bput keyScore newScoreB, .bput (zokeyB name newScoreB key) [],
       .bdel (zokeyB name oldScoreB key)], s')

/-- `Zdel`: fails (surfacing the read error) when the member has no score;
otherwise removes both index entries in one batch. -/
def Zdel (st : Store) (name key : Bytes) : Except String Store :=
  match sget st (zscoreKey name key) with
  | none => .error replyNotFound
  | some oldScore =>
    .ok (writeBatch st
      [.bdel (zscoreKey name key), .bdel (zokeyB name oldScore key)])

/-- The batch built by `Zmset`: each pair is compared against the score read
from the store as it was *before* the batch (the batch is only written at
the end), so duplicate member keys each see the same stale `oldScore`. -/
def zmsetOps (st : Store) (name : Bytes) : List (Bytes × Bytes) → List BatchOp
  | [] => []
  | (key, score) :: rest =>
    let oldScore := (sget st (zscoreKey name key)).getD []
    (if oldScore = score then []
     else [.bput (zscoreKey name key) score, .bput (zokeyB name score key) [],
           .bdel (zokeyB name oldScore key)]) ++ zmsetOps st name rest

/-- `Zmset`: validation, then the conditional writes of every pair folded
into one batch. -/
def Zmset (st : Store) (name : Bytes) (kvs : List Bytes) : Except String Store :=
  if kvs.length = 0 ∨ kvs.length % 2 ≠ 0 then
    .error "kvs len must is an even number"
  else .ok (writeBatch st (zmsetOps st name (kvPairs kvs)))

/-- `Zmget`: best-effort multi point read of the direct index. -/
def Zmget (st : Store) (name : Bytes) (keys : List Bytes) : Reply :=
  let data := mgetLoop st (Bconcat [zetScorePfx, name, splitChar]) keys
  if data.length > 0 then ⟨replyOK, data⟩ else ⟨replyError, data⟩

/-- The batch built by `Zmdel`: members without a score are skipped. -/
def zmdelOps (st : Store) (name : Bytes) : List Bytes → List BatchOp
  | [] => []
  | key :: rest =>
    match sget st (zscoreKey name key) with
    | none => zmdelOps st name rest
    | some oldScore =>
      .bdel (zscoreKey name key) :: .bdel (zokeyB name oldScore key) ::
        zmdelOps st name rest

/-- `Zmdel`: best-effort batched delete of both index entries per member. -/
def Zmdel (st : Store) (name : Bytes) (keys : List Bytes) : Store :=
  writeBatch st (zmdelOps st name keys)

/-- The forward scan loop of `Zscan`: member is `key[keyBegin:]`, score is
`key[scoreBegin:scoreBegin+8]`. -/
def zscanLoop (realKey : Bytes) (scoreBegin : Nat) :
    List (Bytes × Bytes) → Int → List Bytes
  | [], _ => []
  | (k, _) :: rest, limit =>
    if lexLt realKey k then
      k.drop (scoreBegin + 9) :: (k.drop scoreBegin).take 8 ::
        (if limit = 1 then [] else zscanLoop realKey scoreBegin rest (limit - 1))
    else zscanLoop realKey scoreBegin rest limit

/-- The reverse scan loop of `Zrscan` (`bytes.Compare(realKey, key) == 1`). -/
def zrscanLoop (realKey : Bytes) (scoreBegin : Nat) :
    List (Bytes × Bytes) → Int → List Bytes
  | [], _ => []
  | (k, _) :: rest, limit =>
    if lexLt k realKey then
      k.drop (scoreBegin + 9) :: (k.drop scoreBegin).take 8 ::
        (if limit = 1 then [] else zrscanLoop realKey scoreBegin rest (limit - 1))
    else zrscanLoop realKey scoreBegin rest limit

/-- `Zscan`: ascending iteration over the order index.  An empty
`scoreStart` defaults to `scoreMin = 0`; with an empty `keyStart` the
iterator start becomes `BytesPrefix(keyPrefix ‖ scoreStart ‖ sep).Limit`
(that limit always exists since the byte `28` is `< 255`). -/
def Zscan (st : Store) (name keyStart scoreStart : Bytes) (limit : Int) : Reply :=
  let scoreStart' := if scoreStart.length = 0 then Uint64ToBytes 0 else scoreStart
  let keyPfx := Bconcat [zetKeyPfx, name, splitChar]
  let realKey :=
    if keyStart.length = 0 then
      (bytesPfxLimit (Bconcat [keyPfx, scoreStart', splitChar])).getD []
    else Bconcat [keyPfx, scoreStart', splitChar, keyStart]
  let data := zscanLoop realKey keyPfx.length
    (rangeKeys st realKey (bytesPfxLimit keyPfx)) limit
  if data.length > 0 then ⟨replyOK, data⟩ else ⟨replyError, data⟩

/-- `Zrscan`: descending iteration; an empty `scoreStart` defaults to
`scoreMax`, an empty `keyStart` starts the cut at
`BytesPrefix(keyPrefix ‖ scoreStart ‖ sep).Start`, i.e. that very prefix. -/
def Zrscan (st : Store) (name keyStart scoreStart : Bytes) (limit : Int) : Reply :=
  let scoreStart' :=
    if scoreStart.length = 0 then Uint64ToBytes scoreMax else scoreStart
  let keyPfx := Bconcat [zetKeyPfx, name, splitChar]
  let realKey :=
    if keyStart.length = 0 then Bconcat [keyPfx, scoreStart', splitChar]
    else Bconcat [keyPfx, scoreStart', splitChar, keyStart]
  let data := zrscanLoop realKey keyPfx.length
    ((rangeKeys st keyPfx (some realKey)).reverse) limit
  if data.length > 0 then ⟨replyOK, data⟩ else ⟨replyError, data⟩

/-! ### Auxiliary definitions used by the verification -/

/-- The key a batch operation touches. -/
def BatchOp.key : BatchOp → Bytes
  | .bput k _ => k
  | .bdel k => k

/-- `take` driven by the `n++; if n == limit break` countdown of the scan
loops: a non-positive limit never stops the loop. -/
def takeI (limit : Int) : List α → List α
  | [] => []
  | a :: rest => a :: (if limit = 1 then [] else takeI (limit - 1) rest)

/-- Flatten a list of pairs the way the scan loops append them. -/
def pairsFlatten : List (Bytes × Bytes) → List Bytes
  | [] => []
  | p :: rest => p.1 :: p.2 :: pairsFlatten rest

/-- The current counter value `Hincr` starts from: decode of the stored
value, `0` when the read fails. -/
def hcurrent (st : Store) (name key : Bytes) : Nat :=
  match sget st (hkey name key) with
  | some val => BytesToUint64 val
  | none => 0

/-- The shape the claim asserts of every scan/multi-get `Reply`: even data
length, `OK` iff at least one pair was collected, and an empty result
carries the generic error status, so `NotFound` is false. -/
def ReplyPairShape (r : Reply) : Prop :=
  r.Data.length % 2 = 0 ∧ (r.OK = true ↔ r.Data ≠ []) ∧
    (r.Data = [] → r.State = replyError ∧ r.NotFound = false)

/-- Well-formedness of a sorted set's order index: every stored key under
the order-index prefix of `name` is a genuine order-index entry. -/
def WfZOrder (st : Store) (name : Bytes) : Prop :=
  ∀ e ∈ st, Bconcat [zetKeyPfx, name, splitChar] <+: e.1 →
    ∃ s m, s < 2 ^ 64 ∧ e.1 = zokeyB name (Uint64ToBytes s) m

/-- Is `k` an order-index key of `(name, member)` (for some 8-byte score)? -/
def isOrderKeyFor (name member k : Bytes) : Bool :=
  decide (k.take (Bconcat [zetKeyPfx, name, splitChar]).length =
    Bconcat [zetKeyPfx, name, splitChar]) &&
  decide (k.length =
    (Bconcat [zetKeyPfx, name, splitChar]).length + 9 + member.length) &&
  decide (k.drop ((Bconcat [zetKeyPfx, name, splitChar]).length + 8) =
    28 :: member)

/-- The claim's dual-index consistency invariant at one `(name, member)`:
if the direct index holds score bytes `v`, exactly the order-index entry
for `(name, decode v, member)` exists; if absent, none exists. -/
def zsetInvariant (st : Store) (name member : Bytes) : Bool :=
  (sget st (zscoreKey name member)).elim
    ((st.map Prod.fst).all fun k => !(isOrderKeyFor name member k))
    (fun v =>
      decide (zokeyB name (Uint64ToBytes (BytesToUint64 v)) member ∈
        st.map Prod.fst) &&
      (st.map Prod.fst).all fun k =>
        !(isOrderKeyFor name member k) ||
          decide (k = zokeyB name (Uint64ToBytes (BytesToUint64 v)) member))

/-- A sorted-set mutation on a fixed `(name, member)`. -/
inductive ZOp where
  | zset (v : Nat)
  | zincr (step : Int)
  | zdel

/-- Apply one mutation; a failed mutation leaves the store unchanged. -/
def applyZOp (name member : Bytes) (st : Store) : ZOp → Store
  | .zset v => Zset st name member v
  | .zincr step =>
    match Zincr st name member step with
    | .ok p => p.1
    | .error _ => st
  | .zdel =>
    match Zdel st name member with
    | .ok st' => st'
    | .error _ => st

def applyZOps (name member : Bytes) (st : Store) (ops : List ZOp) : Store :=
  ops.foldl (applyZOp name member) st

/-- The canonical store of a single-member sorted set at score `s`. -/
def zCanon (name member : Bytes) (s : Nat) : Store :=
  [(zscoreKey name member, Uint64ToBytes s),
   (zokeyB name (Uint64ToBytes s) member, [])]

/-- Reachable stores of a single-member history: empty or canonical. -/
def ZState (name member : Bytes) (st : Store) : Prop :=
  st = [] ∨ ∃ s, s < 2 ^ 64 ∧ st = zCanon name member s

/-- Conditions under which a mutation is a legal Go call that keeps the
single-member invariant: `Zset` values are `uint64`, `Zincr` steps are
nonzero `int64` (a zero step deletes the order entry it just wrote). -/
def GoodZOp : ZOp → Prop
  | .zset v => v < 2 ^ 64
  | .zincr s => s ≠ 0 ∧ -(2 ^ 63) ≤ s ∧ s < 2 ^ 63
  | .zdel => True

/-! ### Lexicographic-order lemmas -/

theorem lexLt_nil (a : Bytes) : lexLt [] a = !a.isEmpty := by
  cases a <;> rfl

theorem lexLt_nil_right (a : Bytes) : lexLt a [] = false := by
  cases a <;> rfl

theorem lexLt_cons_iff {x y : Nat} {xs ys : Bytes} :
    lexLt (x :: xs) (y :: ys) = true ↔ x < y ∨ (x = y ∧ lexLt xs ys = true) := by
  by_cases h1 : x < y
  · simp [lexLt, h1]
  · by_cases h2 : y < x
    · have h3 : x ≠ y := by omega
      simp [lexLt, h1, h2, h3]
    · have h3 : x = y := by omega
      simp [lexLt, h1, h2, h3]

theorem lexLt_cons_same (x : Nat) (a b : Bytes) :
    lexLt (x :: a) (x :: b) = lexLt a b := by
  simp [lexLt, Nat.lt_irrefl]

theorem lexLt_irrefl (a : Bytes) : lexLt a a = false := by
  induction a with
  | nil => rfl
  | cons x xs ih => rw [lexLt_cons_same]; exact ih

theorem lexLt_asymm {a b : Bytes} (h : lexLt a b = true) : lexLt b a = false := by
  induction a generalizing b with
  | nil => cases b with
    | nil => rfl
    | cons y ys => exact lexLt_nil_right _
  | cons x xs ih =>
    cases b with
    | nil => simp [lexLt_nil_right] at h
    | cons y ys =>
      rcases lexLt_cons_iff.1 h with h' | ⟨rfl, h'⟩
      · rw [Bool.eq_false_iff]
        intro hba
        rcases lexLt_cons_iff.1 hba with h'' | ⟨h'', _⟩ <;> omega
      · rw [Bool.eq_false_iff]
        intro hba
        rcases lexLt_cons_iff.1 hba with h'' | ⟨_, h''⟩
        · omega
        · rw [ih h'] at h''
          exact Bool.false_ne_true h''

theorem lexLt_trans {a b c : Bytes} (hab : lexLt a b = true)
    (hbc : lexLt b c = true) : lexLt a c = true := by
  induction a generalizing b c with
  | nil =>
    cases c with
    | nil =>
      cases b with
      | nil => exact hab
      | cons y ys => simp [lexLt_nil_right] at hbc
    | cons z zs => rfl
  | cons x xs ih =>
    cases b with
    | nil => simp [lexLt_nil_right] at hab
    | cons y ys =>
      cases c with
      | nil => simp [lexLt_nil_right] at hbc
      | cons z zs =>
        rcases lexLt_cons_iff.1 hab with h1 | ⟨rfl, h1⟩ <;>
          rcases lexLt_cons_iff.1 hbc with h2 | ⟨h2, h2'⟩ <;>
          rw [lexLt_cons_iff]
        · left; omega
        · left; omega
        · left; omega
        · subst h2; exact Or.inr ⟨rfl, ih h1 h2'⟩

theorem eq_of_not_lexLt {a b : Bytes} (hab : lexLt a b = false)
    (hba : lexLt b a = false) : a = b := by
  induction a generalizing b with
  | nil =>
    cases b with
    | nil => rfl
    | cons y ys => simp [lexLt_nil] at hab
  | cons x xs ih =>
    cases b with
    | nil => simp [lexLt_nil] at hba
    | cons y ys =>
      rw [Bool.eq_false_iff] at hab hba
      have hx : ¬ (x < y) := fun h => hab (lexLt_cons_iff.2 (Or.inl h))
      have hy : ¬ (y < x) := fun h => hba (lexLt_cons_iff.2 (Or.inl h))
      have hxy : x = y := by omega
      subst hxy
      have : xs = ys := by
        refine ih ?_ ?_ <;> rw [Bool.eq_false_iff]
        · exact fun h => hab (lexLt_cons_iff.2 (Or.inr ⟨rfl, h⟩))
        · exact fun h => hba (lexLt_cons_iff.2 (Or.inr ⟨rfl, h⟩))
      rw [this]

theorem lexLt_append_left (p a b : Bytes) :
    lexLt (p ++ a) (p ++ b) = lexLt a b := by
  induction p with
  | nil => rfl
  | cons x xs ih =>
    simp only [List.cons_append]
    rw [lexLt_cons_same, ih]

theorem lexLt_append_self (p a : Bytes) : lexLt (p ++ a) p = false := by
  have := lexLt_append_left p a []
  rw [List.append_nil] at this
  rw [this, lexLt_nil_right]

theorem lexLt_self_append {a : Bytes} (p : Bytes) (h : a ≠ []) :
    lexLt p (p ++ a) = true := by
  have := lexLt_append_left p [] a
  rw [List.append_nil] at this
  rw [this, lexLt_nil]
  cases a with
  | nil => exact absurd rfl h
  | cons x xs => rfl

theorem lexLe_self_append (p a : Bytes) : lexLe p (p ++ a) = true := by
  rw [lexLe, lexLt_append_self]
  rfl

theorem lexLe_refl (a : Bytes) : lexLe a a = true := by
  rw [lexLe, lexLt_irrefl]
  rfl

theorem lexLe_iff {a b : Bytes} : lexLe a b = true ↔ lexLt b a = false := by
  rw [lexLe, Bool.not_eq_true']

theorem lexLt_of_le_of_lt {a b c : Bytes} (hab : lexLe a b = true)
    (hbc : lexLt b c = true) : lexLt a c = true := by
  rw [lexLe_iff] at hab
  by_cases h : lexLt a b = true
  · exact lexLt_trans h hbc
  · rw [Bool.not_eq_true] at h
    rw [eq_of_not_lexLt h hab]
    exact hbc

theorem lexLe_trans {a b c : Bytes} (hab : lexLe a b = true)
    (hbc : lexLe b c = true) : lexLe a c = true := by
  rw [lexLe_iff] at hab hbc ⊢
  rw [Bool.eq_false_iff]
  intro hca
  by_cases h : lexLt a b = true
  · have := lexLt_trans hca h
    rw [hbc] at this
    exact Bool.false_ne_true this
  · rw [Bool.not_eq_true] at h
    have hb : a = b := eq_of_not_lexLt h hab
    subst hb
    rw [hbc] at hca
    exact Bool.false_ne_true hca

/-- Comparing equal-length blocks: when the blocks differ, they alone decide. -/
theorem lexLt_append_eqlen {a b : Bytes} (x y : Bytes)
    (hlen : a.length = b.length) (hne : a ≠ b) :
    lexLt (a ++ x) (b ++ y) = lexLt a b := by
  induction a generalizing b with
  | nil =>
    cases b with
    | nil => exact absurd rfl hne
    | cons y0 ys => simp at hlen
  | cons x0 xs ih =>
    cases b with
    | nil => simp at hlen
    | cons y0 ys =>
      simp only [List.cons_append]
      rcases Nat.lt_trichotomy x0 y0 with h | h | h
      · have h1 : lexLt (x0 :: (xs ++ x)) (y0 :: (ys ++ y)) = true :=
          lexLt_cons_iff.2 (Or.inl h)
        have h2 : lexLt (x0 :: xs) (y0 :: ys) = true :=
          lexLt_cons_iff.2 (Or.inl h)
        rw [h1, h2]
      · subst h
        have hne' : xs ≠ ys := fun h => hne (by rw [h])
        have hlen' : xs.length = ys.length := by simpa using hlen
        have := ih hlen' hne'
        by_cases hxy : lexLt xs ys = true
        · have h1 : lexLt (x0 :: (xs ++ x)) (x0 :: (ys ++ y)) = true :=
            lexLt_cons_iff.2 (Or.inr ⟨rfl, by rw [this, hxy]⟩)
          have h2 : lexLt (x0 :: xs) (x0 :: ys) = true :=
            lexLt_cons_iff.2 (Or.inr ⟨rfl, hxy⟩)
          rw [h1, h2]
        · rw [Bool.not_eq_true] at hxy
          have h1 : lexLt (x0 :: (xs ++ x)) (x0 :: (ys ++ y)) = false := by
            rw [Bool.eq_false_iff]
            intro hc
            rcases lexLt_cons_iff.1 hc with h' | ⟨_, h'⟩
            · omega
            · rw [this, hxy] at h'
              exact Bool.false_ne_true h'
          have h2 : lexLt (x0 :: xs) (x0 :: ys) = false := by
            rw [Bool.eq_false_iff]
            intro hc
            rcases lexLt_cons_iff.1 hc with h' | ⟨_, h'⟩
            · omega
            · rw [hxy] at h'
              exact Bool.false_ne_true h'
          rw [h1, h2]
      · have h1 : lexLt (x0 :: (xs ++ x)) (y0 :: (ys ++ y)) = false := by
          rw [Bool.eq_false_iff]
          intro hc
          rcases lexLt_cons_iff.1 hc with h' | ⟨h', _⟩ <;> omega
        have h2 : lexLt (x0 :: xs) (y0 :: ys) = false := by
          rw [Bool.eq_false_iff]
          intro hc
          rcases lexLt_cons_iff.1 hc with h' | ⟨h', _⟩ <;> omega
        rw [h1, h2]

/-! ### Encoding lemmas -/

theorem fromDigits_foldl (l : Bytes) :
    ∀ acc, l.foldl (fun acc b => acc * 256 + b) acc =
      acc * 256 ^ l.length + fromDigits l := by
  induction l with
  | nil => intro acc; simp [fromDigits]
  | cons b l ih =>
    intro acc
    show (l.foldl _ (acc * 256 + b)) = _
    rw [ih (acc * 256 + b)]
    have : fromDigits (b :: l) = b * 256 ^ l.length + fromDigits l := by
      show (l.foldl _ (0 * 256 + b)) = _
      rw [ih (0 * 256 + b)]
      ring
    rw [this]
    simp [List.length_cons]
    ring

theorem fromDigits_lt {l : Bytes} (h : ∀ x ∈ l, x < 256) :
    fromDigits l < 256 ^ l.length := by
  induction l with
  | nil => simp [fromDigits]
  | cons b l ih =>
    have hb : b < 256 := h b (List.mem_cons_self b l)
    have hl : fromDigits l < 256 ^ l.length :=
      ih fun x hx => h x (List.mem_cons_of_mem b hx)
    have : fromDigits (b :: l) = b * 256 ^ l.length + fromDigits l := by
      show (l.foldl _ (0 * 256 + b)) = _
      rw [fromDigits_foldl l (0 * 256 + b)]
      ring
    rw [this, List.length_cons, pow_succ]
    calc b * 256 ^ l.length + fromDigits l
        < b * 256 ^ l.length + 256 ^ l.length := by omega
      _ = (b + 1) * 256 ^ l.length := by ring
      _ ≤ 256 * 256 ^ l.length := by
          exact Nat.mul_le_mul_right _ (by omega)
      _ = 256 ^ l.length * 256 := by ring

theorem Uint64ToBytes_length (v : Nat) : (Uint64ToBytes v).length = 8 := rfl

theorem Uint64ToBytes_valid (v : Nat) : ValidBytes (Uint64ToBytes v) := by
  intro x hx
  simp only [Uint64ToBytes, List.mem_cons, List.not_mem_nil, or_false] at hx
  rcases hx with h | h | h | h | h | h | h | h <;> subst h <;> omega

theorem fromDigits_Uint64ToBytes {v : Nat} (hv : v < 2 ^ 64) :
    fromDigits (Uint64ToBytes v) = v := by
  show List.foldl _ 0 _ = v
  simp only [Uint64ToBytes, List.foldl]
  omega

theorem BytesToUint64_Uint64ToBytes {v : Nat} (hv : v < 2 ^ 64) :
    BytesToUint64 (Uint64ToBytes v) = v := by
  rw [BytesToUint64, Uint64ToBytes_length]
  simp only [Nat.lt_irrefl, if_false]
  rw [List.take_of_length_le (le_of_eq (Uint64ToBytes_length v))]
  exact fromDigits_Uint64ToBytes hv

theorem Uint64ToBytes_inj {v w : Nat} (hv : v < 2 ^ 64) (hw : w < 2 ^ 64)
    (h : Uint64ToBytes v = Uint64ToBytes w) : v = w := by
  have := congrArg fromDigits h
  rwa [fromDigits_Uint64ToBytes hv, fromDigits_Uint64ToBytes hw] at this

/-- On equal-length valid digit strings, byte-lexicographic order is
numeric order of the base-256 values. -/
theorem lexLt_eq_fromDigits {a b : Bytes} (hlen : a.length = b.length)
    (ha : ValidBytes a) (hb : ValidBytes b) :
    lexLt a b = decide (fromDigits a < fromDigits b) := by
  induction a generalizing b with
  | nil =>
    cases b with
    | nil => simp [lexLt, fromDigits]
    | cons y ys => simp at hlen
  | cons x xs ih =>
    cases b with
    | nil => simp at hlen
    | cons y ys =>
      have hlen' : xs.length = ys.length := by simpa using hlen
      have hxs : ValidBytes xs := fun t ht => ha t (List.mem_cons_of_mem _ ht)
      have hys : ValidBytes ys := fun t ht => hb t (List.mem_cons_of_mem _ ht)
      have hx : x < 256 := ha x (List.mem_cons_self _ _)
      have hy : y < 256 := hb y (List.mem_cons_self _ _)
      have ea : fromDigits (x :: xs) = x * 256 ^ xs.length + fromDigits xs := by
        show (xs.foldl _ (0 * 256 + x)) = _
        rw [fromDigits_foldl]
        ring
      have eb : fromDigits (y :: ys) = y * 256 ^ ys.length + fromDigits ys := by
        show (ys.foldl _ (0 * 256 + y)) = _
        rw [fromDigits_foldl]
        ring
      rw [hlen'] at ea
      have bxs : fromDigits xs < 256 ^ ys.length := by
        rw [← hlen']; exact fromDigits_lt hxs
      have bys : fromDigits ys < 256 ^ ys.length := fromDigits_lt hys
      rcases Nat.lt_trichotomy x y with h | h | h
      · have h1 : lexLt (x :: xs) (y :: ys) = true := lexLt_cons_iff.2 (Or.inl h)
        rw [h1, ea, eb, eq_comm, decide_eq_true_eq]
        have h2 : (x + 1) * 256 ^ ys.length ≤ y * 256 ^ ys.length :=
          Nat.mul_le_mul_right _ (by omega)
        have h3 : (x + 1) * 256 ^ ys.length =
            x * 256 ^ ys.length + 256 ^ ys.length := by ring
        omega
      · subst h
        rw [lexLt_cons_same, ih hlen' hxs hys, ea, eb]
        congr 1
        rw [eq_iff_iff]
        omega
      · have h1 : lexLt (x :: xs) (y :: ys) = false := by
          rw [Bool.eq_false_iff]
          intro hc
          rcases lexLt_cons_iff.1 hc with h' | ⟨h', _⟩ <;> omega
        rw [h1, ea, eb, eq_comm, decide_eq_false_iff_not]
        have h2 : (y + 1) * 256 ^ ys.length ≤ x * 256 ^ ys.length :=
          Nat.mul_le_mul_right _ (by omega)
        have h3 : (y + 1) * 256 ^ ys.length =
            y * 256 ^ ys.length + 256 ^ ys.length := by ring
        omega

/-- Byte-lexicographic comparison of 8-byte encodings is numeric comparison. -/
theorem lexLt_Uint64ToBytes {v w : Nat} (hv : v < 2 ^ 64) (hw : w < 2 ^ 64) :
    lexLt (Uint64ToBytes v) (Uint64ToBytes w) = decide (v < w) := by
  rw [lexLt_eq_fromDigits (by rw [Uint64ToBytes_length, Uint64ToBytes_length])
    (Uint64ToBytes_valid v) (Uint64ToBytes_valid w),
    fromDigits_Uint64ToBytes hv, fromDigits_Uint64ToBytes hw]

/-! ### Store lemmas -/


theorem sget_mem {st : Store} {k v : Bytes} (h : sget st k = some v) :
    (k, v) ∈ st := by
  induction st with
  | nil => simp [sget] at h
  | cons e rest ih =>
    obtain ⟨k0, v0⟩ := e
    rw [sget] at h
    by_cases hk : k = k0
    · rw [if_pos hk] at h
      subst hk
      obtain rfl := Option.some.inj h
      exact List.mem_cons_self _ _
    · rw [if_neg hk] at h
      exact List.mem_cons_of_mem _ (ih h)

theorem mem_sget {st : Store} {k v : Bytes} (hs : SortedStore st)
    (h : (k, v) ∈ st) : sget st k = some v := by
  induction st with
  | nil => simp at h
  | cons e rest ih =>
    obtain ⟨k0, v0⟩ := e
    rcases List.mem_cons.1 h with h' | h'
    · obtain ⟨rfl, rfl⟩ := Prod.mk.injEq .. ▸ Prod.ext_iff.1 h'
      rw [sget, if_pos rfl]
    · rw [SortedStore, List.pairwise_cons] at hs
      have hlt : lexLt k0 k = true := hs.1 (k, v) h'
      have hne : k ≠ k0 := by
        intro hk
        subst hk
        rw [lexLt_irrefl] at hlt
        exact Bool.false_ne_true hlt
      rw [sget, if_neg hne]
      exact ih hs.2 h'

theorem sget_sput_self (st : Store) (k v : Bytes) :
    sget (sput st k v) k = some v := by
  induction st with
  | nil => simp [sput, sget]
  | cons e rest ih =>
    obtain ⟨k0, v0⟩ := e
    rw [sput]
    by_cases h1 : lexLt k k0 = true
    · rw [if_pos h1, sget, if_pos rfl]
    · rw [if_neg h1]
      by_cases h2 : k = k0
      · rw [if_pos h2, sget, if_pos rfl]
      · rw [if_neg h2, sget, if_neg h2]
        exact ih

theorem sget_sput_ne (st : Store) {k k' : Bytes} (v : Bytes) (h : k' ≠ k) :
    sget (sput st k v) k' = sget st k' := by
  induction st with
  | nil => simp [sput, sget, h]
  | cons e rest ih =>
    obtain ⟨k0, v0⟩ := e
    rw [sput]
    by_cases h1 : lexLt k k0 = true
    · rw [if_pos h1, sget, if_neg h, sget]
    · rw [if_neg h1]
      by_cases h2 : k = k0
      · subst h2
        rw [if_pos rfl, sget, sget, if_neg h, if_neg h]
      · rw [if_neg h2, sget, sget]
        by_cases h3 : k' = k0
        · rw [if_pos h3, if_pos h3]
        · rw [if_neg h3, if_neg h3]
          exact ih

theorem sget_sdel_ne (st : Store) {k k' : Bytes} (h : k' ≠ k) :
    sget (sdel st k) k' = sget st k' := by
  induction st with
  | nil => simp [sdel]
  | cons e rest ih =>
    obtain ⟨k0, v0⟩ := e
    rw [sdel]
    by_cases h1 : k = k0
    · subst h1
      rw [if_pos rfl, sget, if_neg h]
    · rw [if_neg h1, sget, sget]
      by_cases h2 : k' = k0
      · rw [if_pos h2, if_pos h2]
      · rw [if_neg h2, if_neg h2]
        exact ih

theorem sget_writeBatch_untouched (ops : List BatchOp) (st : Store) {k : Bytes}
    (h : ∀ op ∈ ops, op.key ≠ k) :
    sget (writeBatch st ops) k = sget st k := by
  induction ops generalizing st with
  | nil => rfl
  | cons op rest ih =>
    have hop : op.key ≠ k := h op (List.mem_cons_self _ _)
    have hrest : ∀ o ∈ rest, BatchOp.key o ≠ k :=
      fun o ho => h o (List.mem_cons_of_mem _ ho)
    cases op with
    | bput k0 v0 =>
      show sget (writeBatch (sput st k0 v0) rest) k = sget st k
      rw [ih _ hrest]
      exact sget_sput_ne st v0 fun he => hop he.symm
    | bdel k0 =>
      show sget (writeBatch (sdel st k0) rest) k = sget st k
      rw [ih _ hrest]
      exact sget_sdel_ne st fun he => hop he.symm

theorem writeBatch_append (st : Store) (a b : List BatchOp) :
    writeBatch st (a ++ b) = writeBatch (writeBatch st a) b :=
  List.foldl_append ..

/-! ### Scan loop characterizations -/


theorem takeI_eq_take {limit : Int} (h : 1 ≤ limit) (l : List α) :
    takeI limit l = l.take limit.toNat := by
  induction l generalizing limit with
  | nil => simp [takeI]
  | cons a rest ih =>
    rw [takeI]
    by_cases h1 : limit = 1
    · subst h1
      rfl
    · rw [if_neg h1, ih (by omega)]
      have : limit.toNat = (limit - 1).toNat + 1 := by omega
      rw [this, List.take_succ_cons]

theorem takeI_all {limit : Int} {l : List α}
    (h : limit ≤ 0 ∨ (l.length : Int) ≤ limit) : takeI limit l = l := by
  induction l generalizing limit with
  | nil => rfl
  | cons a rest ih =>
    rw [takeI]
    rcases h with h | h
    · rw [if_neg (by omega), ih (Or.inl (by omega))]
    · rw [List.length_cons] at h
      by_cases h1 : limit = 1
      · subst h1
        have : rest = [] := by
          rw [← List.length_eq_zero]
          omega
        rw [if_pos rfl, this]
      · rw [if_neg h1, ih (Or.inr (by omega))]

theorem takeI_sublist (limit : Int) (l : List α) :
    List.Sublist (takeI limit l) l := by
  induction l generalizing limit with
  | nil => exact List.Sublist.refl _
  | cons a rest ih =>
    rw [takeI]
    by_cases h1 : limit = 1
    · rw [if_pos h1]
      exact (List.nil_sublist rest).cons₂ a
    · rw [if_neg h1]
      exact (ih (limit - 1)).cons₂ a

theorem takeI_length_le {limit : Int} (h : 1 ≤ limit) (l : List α) :
    (takeI limit l).length ≤ limit.toNat := by
  rw [takeI_eq_take h]
  exact List.length_take_le _ _

theorem mem_takeI {limit : Int} {l : List α} {x : α} (h : x ∈ takeI limit l) :
    x ∈ l :=
  (takeI_sublist limit l).mem h


theorem pairsFlatten_length (l : List (Bytes × Bytes)) :
    (pairsFlatten l).length = 2 * l.length := by
  induction l with
  | nil => rfl
  | cons p rest ih => simp [pairsFlatten, ih]; omega

theorem pairsFlatten_eq_nil {l : List (Bytes × Bytes)} :
    pairsFlatten l = [] ↔ l = [] := by
  cases l with
  | nil => simp [pairsFlatten]
  | cons p rest => simp [pairsFlatten]

theorem pairUp_pairsFlatten (l : List (Bytes × Bytes)) :
    pairUp (pairsFlatten l) = l.map fun p => ⟨p.1, p.2⟩ := by
  induction l with
  | nil => rfl
  | cons p rest ih => simp [pairsFlatten, pairUp, ih]

theorem hscanLoop_eq (realKey : Bytes) (stripLen : Nat)
    (l : List (Bytes × Bytes)) (limit : Int) :
    hscanLoop realKey stripLen l limit =
      pairsFlatten (takeI limit ((l.filter fun e => lexLt realKey e.1).map
        fun e => (e.1.drop stripLen, e.2))) := by
  induction l generalizing limit with
  | nil => rfl
  | cons e rest ih =>
    obtain ⟨k, v⟩ := e
    rw [hscanLoop]
    by_cases h : lexLt realKey k = true
    · have hf : List.filter (fun e => lexLt realKey e.1) ((k, v) :: rest) =
          (k, v) :: List.filter (fun e => lexLt realKey e.1) rest := by
        rw [List.filter_cons]
        simp [h]
      rw [if_pos h, hf, List.map_cons, takeI, pairsFlatten]
      by_cases h1 : limit = 1
      · rw [if_pos h1, if_pos h1]
        rfl
      · rw [if_neg h1, if_neg h1, ih]
    · have hf : List.filter (fun e => lexLt realKey e.1) ((k, v) :: rest) =
          List.filter (fun e => lexLt realKey e.1) rest := by
        rw [List.filter_cons]
        simp [h]
      rw [if_neg h, hf, ih]

theorem hrscanLoop_eq (stripLen : Nat) (l : List (Bytes × Bytes))
    (limit : Int) :
    hrscanLoop stripLen l limit =
      pairsFlatten (takeI limit (l.map fun e => (e.1.drop stripLen, e.2))) := by
  induction l generalizing limit with
  | nil => rfl
  | cons e rest ih =>
    obtain ⟨k, v⟩ := e
    rw [hrscanLoop, List.map_cons, takeI, pairsFlatten]
    by_cases h1 : limit = 1
    · rw [if_pos h1, if_pos h1]
      rfl
    · rw [if_neg h1, if_neg h1, ih]

theorem zscanLoop_eq (realKey : Bytes) (scoreBegin : Nat)
    (l : List (Bytes × Bytes)) (limit : Int) :
    zscanLoop realKey scoreBegin l limit =
      pairsFlatten (takeI limit ((l.filter fun e => lexLt realKey e.1).map
        fun e => (e.1.drop (scoreBegin + 9), (e.1.drop scoreBegin).take 8))) := by
  induction l generalizing limit with
  | nil => rfl
  | cons e rest ih =>
    obtain ⟨k, v⟩ := e
    rw [zscanLoop]
    by_cases h : lexLt realKey k = true
    · have hf : List.filter (fun e => lexLt realKey e.1) ((k, v) :: rest) =
          (k, v) :: List.filter (fun e => lexLt realKey e.1) rest := by
        rw [List.filter_cons]
        simp [h]
      rw [if_pos h, hf, List.map_cons, takeI, pairsFlatten]
      by_cases h1 : limit = 1
      · rw [if_pos h1, if_pos h1]
        rfl
      · rw [if_neg h1, if_neg h1, ih]
    · have hf : List.filter (fun e => lexLt realKey e.1) ((k, v) :: rest) =
          List.filter (fun e => lexLt realKey e.1) rest := by
        rw [List.filter_cons]
        simp [h]
      rw [if_neg h, hf, ih]

theorem zrscanLoop_eq (realKey : Bytes) (scoreBegin : Nat)
    (l : List (Bytes × Bytes)) (limit : Int) :
    zrscanLoop realKey scoreBegin l limit =
      pairsFlatten (takeI limit ((l.filter fun e => lexLt e.1 realKey).map
        fun e => (e.1.drop (scoreBegin + 9), (e.1.drop scoreBegin).take 8))) := by
  induction l generalizing limit with
  | nil => rfl
  | cons e rest ih =>
    obtain ⟨k, v⟩ := e
    rw [zrscanLoop]
    by_cases h : lexLt k realKey = true
    · have hf : List.filter (fun e => lexLt e.1 realKey) ((k, v) :: rest) =
          (k, v) :: List.filter (fun e => lexLt e.1 realKey) rest := by
        rw [List.filter_cons]
        simp [h]
      rw [if_pos h, hf, List.map_cons, takeI, pairsFlatten]
      by_cases h1 : limit = 1
      · rw [if_pos h1, if_pos h1]
        rfl
      · rw [if_neg h1, if_neg h1, ih]
    · have hf : List.filter (fun e => lexLt e.1 realKey) ((k, v) :: rest) =
          List.filter (fun e => lexLt e.1 realKey) rest := by
        rw [List.filter_cons]
        simp [h]
      rw [if_neg h, hf, ih]

theorem mgetLoop_eq (st : Store) (keyPfx : Bytes) (keys : List Bytes) :
    mgetLoop st keyPfx keys =
      pairsFlatten (keys.filterMap fun k =>
        (sget st (Bconcat [keyPfx, k])).map fun v => (k, v)) := by
  induction keys with
  | nil => rfl
  | cons k rest ih =>
    rw [mgetLoop, List.filterMap_cons]
    cases h : sget st (Bconcat [keyPfx, k]) with
    | none => exact ih
    | some v => exact congrArg (fun l => k :: v :: l) ih

/-! ### Range lemmas -/

theorem mem_rangeKeys {st : Store} {start : Bytes} {lim : Option Bytes}
    {e : Bytes × Bytes} :
    e ∈ rangeKeys st start lim ↔ e ∈ st ∧ inRange start lim e.1 = true := by
  rw [rangeKeys, List.mem_filter]

theorem rangeKeys_sublist (st : Store) (start : Bytes) (lim : Option Bytes) :
    List.Sublist (rangeKeys st start lim) st :=
  List.filter_sublist st

theorem rangeKeys_pairwise {st : Store} (hs : SortedStore st)
    (start : Bytes) (lim : Option Bytes) :
    List.Pairwise (fun a b : Bytes × Bytes => lexLt a.1 b.1 = true)
      (rangeKeys st start lim) :=
  hs.sublist (rangeKeys_sublist st start lim)

theorem inRange_some {start q k : Bytes} :
    inRange start (some q) k = true ↔
      lexLe start k = true ∧ lexLt k q = true := by
  rw [inRange]
  simp

theorem inRange_none {start k : Bytes} :
    inRange start none k = true ↔ lexLe start k = true := by
  rw [inRange]
  simp

theorem pfx_cons {p k : Bytes} (x : Nat) (h : p <+: k) :
    x :: p <+: x :: k := by
  obtain ⟨r, rfl⟩ := h
  exact ⟨r, rfl⟩

/-- A key sandwiched between `p` and `p ++ s` extends `p`. -/
theorem sandwich_append {p s k : Bytes} (h1 : lexLe p k = true)
    (h2 : lexLt k (p ++ s) = true) : p <+: k := by
  induction p generalizing k with
  | nil => exact List.nil_prefix
  | cons c p' ih =>
    cases k with
    | nil =>
      rw [lexLe, lexLt_nil] at h1
      simp at h1
    | cons d k' =>
      rcases Nat.lt_trichotomy d c with h | h | h
      · rw [lexLe, Bool.not_eq_true'] at h1
        rw [lexLt_cons_iff.2 (Or.inl h)] at h1
        exact absurd h1 (by simp)
      · subst h
        rw [List.cons_append] at h2
        rw [lexLt_cons_same] at h2
        rw [lexLe, lexLt_cons_same, ← lexLe] at h1
        exact pfx_cons _ (ih h1 h2)
      · rw [List.cons_append] at h2
        rcases lexLt_cons_iff.1 h2 with h' | ⟨h', _⟩ <;> omega

/-- All-`0xff` byte strings: any valid `k` at or above `replicate t 255`
extends it. -/
theorem replicate255_isPfx {t : Nat} {k : Bytes} (hk : ValidBytes k)
    (h : lexLe (List.replicate t 255) k = true) :
    List.replicate t 255 <+: k := by
  induction t generalizing k with
  | zero => exact List.nil_prefix
  | succ t ih =>
    cases k with
    | nil =>
      rw [List.replicate_succ, lexLe, lexLt_nil] at h
      simp at h
    | cons d k' =>
      rw [List.replicate_succ] at h ⊢
      have hd : d < 256 := hk d (List.mem_cons_self _ _)
      rcases Nat.lt_trichotomy d 255 with h' | h' | h'
      · rw [lexLe, Bool.not_eq_true'] at h
        rw [lexLt_cons_iff.2 (Or.inl h')] at h
        exact absurd h (by simp)
      · subst h'
        rw [lexLe, lexLt_cons_same, ← lexLe] at h
        exact pfx_cons _ (ih (fun x hx => hk x (List.mem_cons_of_mem _ hx)) h)
      · omega

/-- Core of the `BytesPrefix` range property: a valid key between
`Q ++ c :: replicate t 255` (with `c < 255`) and `Q ++ [c+1]` extends the
former. -/
theorem sandwich_pfxLimit {Q : Bytes} {c t : Nat} {k : Bytes} (hc : c < 255)
    (hk : ValidBytes k)
    (h1 : lexLe (Q ++ c :: List.replicate t 255) k = true)
    (h2 : lexLt k (Q ++ [c + 1]) = true) :
    (Q ++ c :: List.replicate t 255) <+: k := by
  induction Q generalizing k with
  | nil =>
    cases k with
    | nil =>
      rw [List.nil_append, lexLe, lexLt_nil] at h1
      simp at h1
    | cons d k' =>
      rw [List.nil_append] at h1 h2 ⊢
      rcases Nat.lt_trichotomy d c with h' | h' | h'
      · rw [lexLe, Bool.not_eq_true'] at h1
        rw [lexLt_cons_iff.2 (Or.inl h')] at h1
        exact absurd h1 (by simp)
      · subst h'
        rw [lexLe, lexLt_cons_same, ← lexLe] at h1
        exact pfx_cons _ (replicate255_isPfx
          (fun x hx => hk x (List.mem_cons_of_mem _ hx)) h1)
      · exfalso
        rcases lexLt_cons_iff.1 h2 with h'' | ⟨h'', h3⟩
        · omega
        · subst h''
          rw [lexLt_nil_right] at h3
          exact Bool.false_ne_true h3
  | cons x Q' ih =>
    cases k with
    | nil =>
      rw [List.cons_append, lexLe, lexLt_nil] at h1
      simp at h1
    | cons d k' =>
      rw [List.cons_append] at h1 h2 ⊢
      rcases Nat.lt_trichotomy d x with h' | h' | h'
      · rw [lexLe, Bool.not_eq_true'] at h1
        rw [lexLt_cons_iff.2 (Or.inl h')] at h1
        exact absurd h1 (by simp)
      · subst h'
        rw [lexLe, lexLt_cons_same, ← lexLe] at h1
        rw [lexLt_cons_same] at h2
        exact pfx_cons _ (ih (fun x hx => hk x (List.mem_cons_of_mem _ hx)) h1 h2)
      · exfalso
        rcases lexLt_cons_iff.1 h2 with h'' | ⟨h'', _⟩ <;> omega

/-- Structure of `bytesPfxLimit` on a valid byte string. -/
theorem bytesPfxLimit_decomp {p : Bytes} (hp : ValidBytes p) :
    (bytesPfxLimit p = none ∧ p = List.replicate p.length 255) ∨
    (∃ Q c t, c < 255 ∧ p = Q ++ c :: List.replicate t 255 ∧
      bytesPfxLimit p = some (Q ++ [c + 1])) := by
  rw [bytesPfxLimit]
  cases hdw : p.reverse.dropWhile (fun c => 255 ≤ c) with
  | nil =>
    left
    refine ⟨rfl, ?_⟩
    rw [List.dropWhile_eq_nil_iff] at hdw
    rw [List.eq_replicate_iff]
    refine ⟨rfl, fun b hb => ?_⟩
    have h1 : b ∈ p.reverse := List.mem_reverse.2 hb
    have h2 : 255 ≤ b := by simpa using hdw b h1
    have h3 : b < 256 := hp b hb
    omega
  | cons c rest =>
    right
    have hsplit : p.reverse.takeWhile (fun c => 255 ≤ c) ++ (c :: rest) =
        p.reverse := by
      rw [← hdw, List.takeWhile_append_dropWhile]
    have hc : ¬ (255 ≤ c) := by
      have := List.head?_dropWhile_not (fun c : Nat => decide (255 ≤ c))
        p.reverse
      rw [hdw] at this
      simpa using this
    set tw := p.reverse.takeWhile (fun c : Nat => 255 ≤ c) with htw
    have hrepl : tw = List.replicate tw.length 255 := by
      rw [List.eq_replicate_iff]
      refine ⟨rfl, fun b hb => ?_⟩
      have h1 : 255 ≤ b := by
        have := List.mem_takeWhile_imp (htw ▸ hb)
        simpa using this
      have h2 : b ∈ p := by
        rw [← List.mem_reverse, ← hsplit]
        exact List.mem_append_left _ (htw ▸ hb)
      have h3 : b < 256 := hp b h2
      omega
    refine ⟨rest.reverse, c, tw.length, by omega, ?_, ?_⟩
    · have : p = (tw ++ c :: rest).reverse := by
        rw [hsplit, List.reverse_reverse]
      rw [this, List.reverse_append, List.reverse_cons, hrepl,
        List.reverse_replicate]
      simp
    · show some (((c + 1) :: rest).reverse) = some (rest.reverse ++ [c + 1])
      rw [List.reverse_cons]

/-- The `BytesPrefix(p)` iterator range contains exactly the keys
extending `p` (on valid byte strings). -/
theorem inRange_bytesPfxLimit_iff {p k : Bytes} (hp : ValidBytes p)
    (hk : ValidBytes k) :
    inRange p (bytesPfxLimit p) k = true ↔ p <+: k := by
  rcases bytesPfxLimit_decomp hp with ⟨hnone, hrepl⟩ | ⟨Q, c, t, hc, hpd, hsome⟩
  · rw [hnone, inRange_none]
    constructor
    · intro h
      rw [hrepl] at h ⊢
      exact replicate255_isPfx hk h
    · rintro ⟨r, rfl⟩
      exact lexLe_self_append _ _
  · rw [hsome, inRange_some]
    constructor
    · rintro ⟨h1, h2⟩
      rw [hpd] at h1 ⊢
      rw [hpd] at *
      exact sandwich_pfxLimit hc hk h1 h2
    · rintro ⟨r, rfl⟩
      refine ⟨lexLe_self_append _ _, ?_⟩
      rw [hpd]
      rw [List.append_assoc, lexLt_append_left]
      exact lexLt_cons_iff.2 (Or.inl (by omega))

/-! ### Auxiliary facts shared by the claims -/

theorem Bconcat_pair_split (a b c d : Bytes) :
    Bconcat [Bconcat [a, b, c], d] = Bconcat [a, b, c, d] := by
  simp [Bconcat]

theorem reply_strings_distinct :
    replyOK ≠ replyError ∧ replyOK ≠ replyNotFound ∧
      replyError ≠ replyNotFound := by
  refine ⟨?_, ?_, ?_⟩ <;> decide


/-- All keys a list of puts writes end up present. -/
theorem sget_writeBatch_puts (ps : List (Bytes × Bytes)) (st : Store)
    {k : Bytes} (h : k ∈ ps.map Prod.fst) :
    (sget (writeBatch st (ps.map fun p => BatchOp.bput p.1 p.2)) k).isSome = true := by
  induction ps generalizing st with
  | nil => simp at h
  | cons p rest ih =>
    rw [List.map_cons] at h
    show (sget (writeBatch (sput st p.1 p.2)
      (rest.map fun p => BatchOp.bput p.1 p.2)) k).isSome = true
    by_cases hk : k ∈ rest.map Prod.fst
    · exact ih _ hk
    · have hkp : k = p.1 := by
        rcases List.mem_cons.1 h with h' | h'
        · exact h'
        · exact absurd h' hk
      have huntouched : ∀ op ∈ rest.map fun p => BatchOp.bput p.1 p.2,
          BatchOp.key op ≠ k := by
        intro op hop
        rcases List.mem_map.1 hop with ⟨q, hq, rfl⟩
        show q.1 ≠ k
        intro he
        exact hk (he ▸ List.mem_map_of_mem Prod.fst hq)
      rw [sget_writeBatch_untouched _ _ huntouched, hkp, sget_sput_self]
      rfl

/-! ### Claim C8 -/

/-- Claim C8 (confirmed): for every 64-bit value `v`,
`BytesToUint64 (Uint64ToBytes v) = v`, the encoding is exactly 8 bytes, and
byte-lexicographic comparison of encodings is numeric comparison. -/
theorem uint64_roundtrip_bigendian (v w : Nat) (hv : v < 2 ^ 64)
    (hw : w < 2 ^ 64) :
    BytesToUint64 (Uint64ToBytes v) = v ∧ (Uint64ToBytes v).length = 8 ∧
      (lexLt (Uint64ToBytes v) (Uint64ToBytes w) = true ↔ v < w) := by
  refine ⟨BytesToUint64_Uint64ToBytes hv, Uint64ToBytes_length v, ?_⟩
  rw [lexLt_Uint64ToBytes hv hw]
  simp

/-- Witness for C8 at `v = 123456`, `w = 2^64 - 1`. -/
theorem uint64_roundtrip_bigendian_witness :
    BytesToUint64 (Uint64ToBytes 123456) = 123456 ∧
      (Uint64ToBytes 123456).length = 8 ∧
      (lexLt (Uint64ToBytes 123456) (Uint64ToBytes (2 ^ 64 - 1)) = true ↔
        123456 < 2 ^ 64 - 1) :=
  uint64_roundtrip_bigendian 123456 (2 ^ 64 - 1) (by norm_num) (by norm_num)

/-! ### Claim C7 -/

/-- Claim C7 (confirmed): `Hmset` fails with the validation error exactly
when the flattened pair list is empty or of odd length, and writes nothing
then; otherwise it writes every pair in one batch, after which each given
key is present. -/
theorem hmset_validation (st : Store) (name : Bytes) (kvs : List Bytes) :
    (Hmset st name kvs = .error "kvs len must is an even number" ↔
      kvs.length = 0 ∨ kvs.length % 2 ≠ 0) ∧
    (kvs.length ≠ 0 → kvs.length % 2 = 0 →
      Hmset st name kvs = .ok (writeBatch st ((kvPairs kvs).map fun p =>
        BatchOp.bput (hkey name p.1) p.2)) ∧
      ∀ stout, Hmset st name kvs = .ok stout →
        ∀ p ∈ kvPairs kvs, (sget stout (hkey name p.1)).isSome = true) := by
  have hkeyeq : ∀ p : Bytes × Bytes,
      Bconcat [Bconcat [hashPfx, name, splitChar], p.1] = hkey name p.1 :=
    fun p => Bconcat_pair_split ..
  constructor
  · rw [Hmset]
    by_cases h : kvs.length = 0 ∨ kvs.length % 2 ≠ 0
    · rw [if_pos h]
      exact iff_of_true rfl h
    · rw [if_neg h]
      refine iff_of_false ?_ h
      intro habs
      exact Except.noConfusion habs
  · intro h1 h2
    have hcond : ¬ (kvs.length = 0 ∨ kvs.length % 2 ≠ 0) := by
      push_neg
      exact ⟨h1, h2⟩
    have heq : Hmset st name kvs = .ok (writeBatch st ((kvPairs kvs).map fun p =>
        BatchOp.bput (hkey name p.1) p.2)) := by
      rw [Hmset, if_neg hcond]
      congr 1
      congr 1
      exact List.map_congr_left fun p _ => by rw [hkeyeq p]
    refine ⟨heq, fun stout hout p hp => ?_⟩
    rw [heq] at hout
    obtain rfl := Except.ok.inj hout
    have hbatch : ((kvPairs kvs).map fun q => (hkey name q.1, q.2)).map
        (fun p => BatchOp.bput p.1 p.2) =
        (kvPairs kvs).map fun p => BatchOp.bput (hkey name p.1) p.2 := by
      rw [List.map_map]
      rfl
    have hmem : hkey name p.1 ∈
        ((kvPairs kvs).map fun q => (hkey name q.1, q.2)).map Prod.fst := by
      rw [List.map_map]
      exact List.mem_map_of_mem _ hp
    have := sget_writeBatch_puts
      ((kvPairs kvs).map fun q => (hkey name q.1, q.2)) st hmem
    rw [hbatch] at this
    exact this

/-- Witness for C7 on a two-pair list. -/
theorem hmset_validation_witness :
    (Hmset [] [104] [[97], [118], [98], [119]] =
        .error "kvs len must is an even number" ↔
      ([[97], [118], [98], [119]] : List Bytes).length = 0 ∨
        ([[97], [118], [98], [119]] : List Bytes).length % 2 ≠ 0) ∧
    (([[97], [118], [98], [119]] : List Bytes).length ≠ 0 →
      ([[97], [118], [98], [119]] : List Bytes).length % 2 = 0 →
      Hmset [] [104] [[97], [118], [98], [119]] =
        .ok (writeBatch [] ((kvPairs [[97], [118], [98], [119]]).map fun p =>
          BatchOp.bput (hkey [104] p.1) p.2)) ∧
      ∀ stout, Hmset [] [104] [[97], [118], [98], [119]] = .ok stout →
        ∀ p ∈ kvPairs [[97], [118], [98], [119]],
          (sget stout (hkey [104] p.1)).isSome = true) :=
  hmset_validation [] [104] [[97], [118], [98], [119]]

/-! ### Claim C6 -/

/-- Claim C6 (confirmed): `Hmget` silently skips members whose point read
fails (in this pure model, exactly the not-found reads), the collected
pairs appear in input order, and the state is the found status iff at
least one pair was retrieved. -/
theorem hmget_best_effort (st : Store) (name : Bytes) (keys : List Bytes) :
    (Hmget st name keys).Data =
      pairsFlatten (keys.filterMap fun k =>
        (sget st (hkey name k)).map fun v => (k, v)) ∧
    ((Hmget st name keys).State = replyOK ↔
      ∃ k ∈ keys, (sget st (hkey name k)).isSome = true) := by
  have hdata : mgetLoop st (Bconcat [hashPfx, name, splitChar]) keys =
      pairsFlatten (keys.filterMap fun k =>
        (sget st (hkey name k)).map fun v => (k, v)) := by
    rw [mgetLoop_eq]
    congr 1
    refine List.filterMap_congr fun k _ => ?_
    rw [Bconcat_pair_split]
    rfl
  have hsplit : Hmget st name keys =
      if (mgetLoop st (Bconcat [hashPfx, name, splitChar]) keys).length > 0 then
        Reply.mk replyOK (mgetLoop st (Bconcat [hashPfx, name, splitChar]) keys)
      else
        Reply.mk replyError (mgetLoop st (Bconcat [hashPfx, name, splitChar]) keys) :=
    rfl
  by_cases h : (mgetLoop st (Bconcat [hashPfx, name, splitChar]) keys).length > 0
  · rw [hsplit, if_pos h]
    refine ⟨hdata, ?_⟩
    have hex : ∃ k ∈ keys, (sget st (hkey name k)).isSome = true := by
      by_contra hnone
      push_neg at hnone
      have hall : ∀ k ∈ keys,
          ((sget st (hkey name k)).map fun v => (k, v)) = none := by
        intro k hk
        have hn := hnone k hk
        cases hs : sget st (hkey name k) with
        | none => rfl
        | some v => rw [hs] at hn; simp at hn
      have hnil : (keys.filterMap fun k =>
          (sget st (hkey name k)).map fun v => (k, v)) = [] :=
        List.filterMap_eq_nil.2 hall
      rw [hdata, hnil] at h
      simp [pairsFlatten] at h
    exact iff_of_true rfl hex
  · rw [hsplit, if_neg h]
    refine ⟨hdata, ?_⟩
    constructor
    · intro habs
      exact absurd habs.symm reply_strings_distinct.1
    · rintro ⟨k, hk, hsome⟩
      exfalso
      apply h
      rw [hdata, pairsFlatten_length]
      have : (keys.filterMap fun k =>
          (sget st (hkey name k)).map fun v => (k, v)) ≠ [] := by
        intro hnil
        have := List.filterMap_eq_nil.1 hnil k hk
        cases hs : sget st (hkey name k) with
        | none => rw [hs] at hsome; simp at hsome
        | some v => rw [hs] at this; simp at this
      have hlen : 0 < (keys.filterMap fun k =>
          (sget st (hkey name k)).map fun v => (k, v)).length :=
        List.length_pos.2 this
      omega

/-! ### Claim C4 -/

/-- Claim C4 (confirmed): `Hincr` treats a missing (or short, hence
decoded-to-0) counter as 0, fails with the overflow error exactly when a
positive step would push past `2^64 - 1` or a non-positive step's magnitude
exceeds the current value, and otherwise stores and returns the new value;
the three concrete scenarios of the claim are instances.  The bounds on
`step` are Go's `int64` range. -/
theorem hincr_overflow_spec (st : Store) (name key : Bytes) (step : Int)
    (hlo : -(2 ^ 63) ≤ step) (hhi : step < 2 ^ 63) :
    (0 < step →
      (2 ^ 64 - 1 < hcurrent st name key + step.toNat →
        Hincr st name key step = .error "overflow number") ∧
      (hcurrent st name key + step.toNat ≤ 2 ^ 64 - 1 →
        Hincr st name key step = .ok (sput st (hkey name key)
          (Uint64ToBytes (hcurrent st name key + step.toNat)),
          hcurrent st name key + step.toNat))) ∧
    (step ≤ 0 →
      (hcurrent st name key < (-step).toNat →
        Hincr st name key step = .error "overflow number") ∧
      ((-step).toNat ≤ hcurrent st name key →
        Hincr st name key step = .ok (sput st (hkey name key)
          (Uint64ToBytes (hcurrent st name key - (-step).toNat)),
          hcurrent st name key - (-step).toNat))) ∧
    Hincr [] name key (-1) = .error "overflow number" ∧
    Hincr (Hset [] name key (Uint64ToBytes (2 ^ 64 - 2))) name key 2 =
      .error "overflow number" ∧
    Hincr (Hset [] name key (Uint64ToBytes 5)) name key (-2) =
      .ok (sput (Hset [] name key (Uint64ToBytes 5)) (hkey name key)
        (Uint64ToBytes 3), 3) := by
  have hunfold : ∀ (st' : Store) (s : Int), Hincr st' name key s =
      if 0 < s then
        if scoreMax - s.toNat < hcurrent st' name key then
          .error "overflow number"
        else .ok (sput st' (hkey name key)
          (Uint64ToBytes (hcurrent st' name key + s.toNat)),
          hcurrent st' name key + s.toNat)
      else
        if hcurrent st' name key < (-s).toNat then .error "overflow number"
        else .ok (sput st' (hkey name key)
          (Uint64ToBytes (hcurrent st' name key - (-s).toNat)),
          hcurrent st' name key - (-s).toNat) := fun st' s => rfl
  refine ⟨?_, ?_, ?_, ?_, ?_⟩
  · intro hpos
    have hstep : step.toNat < 2 ^ 63 := by omega
    constructor
    · intro hover
      rw [hunfold, if_pos hpos, if_pos (by rw [scoreMax]; omega)]
    · intro hok
      rw [hunfold, if_pos hpos, if_neg (by rw [scoreMax]; omega)]
  · intro hneg
    have hnp : ¬ (0 < step) := by omega
    constructor
    · intro hunder
      rw [hunfold, if_neg hnp, if_pos hunder]
    · intro hok
      rw [hunfold, if_neg hnp, if_neg (by omega)]
  · have hcur : hcurrent [] name key = 0 := rfl
    rw [hunfold [] (-1), if_neg (by norm_num), hcur, if_pos (by norm_num)]
  · have hget : sget (Hset [] name key (Uint64ToBytes (2 ^ 64 - 2)))
        (hkey name key) = some (Uint64ToBytes (2 ^ 64 - 2)) :=
      sget_sput_self ..
    have hcur : hcurrent (Hset [] name key (Uint64ToBytes (2 ^ 64 - 2)))
        name key = 2 ^ 64 - 2 := by
      rw [hcurrent, hget]
      exact BytesToUint64_Uint64ToBytes (by norm_num)
    rw [hunfold _ 2, if_pos (by norm_num), hcur,
      if_pos (by rw [scoreMax]; omega)]
  · have hget : sget (Hset [] name key (Uint64ToBytes 5))
        (hkey name key) = some (Uint64ToBytes 5) :=
      sget_sput_self ..
    have hcur : hcurrent (Hset [] name key (Uint64ToBytes 5)) name key = 5 := by
      rw [hcurrent, hget]
      exact BytesToUint64_Uint64ToBytes (by norm_num)
    rw [hunfold _ (-2), if_neg (by norm_num), hcur, if_neg (by omega)]
    have h53 : (5 : Nat) - (-(-2 : Int)).toNat = 3 := by omega
    rw [h53]

/-- Witness for C4 at `step = -2`. -/
theorem hincr_overflow_spec_witness :
    -(2 ^ 63) ≤ (-2 : Int) ∧ (-2 : Int) < 2 ^ 63 ∧
      Hincr (Hset [] [99] [107] (Uint64ToBytes 5)) [99] [107] (-2) =
        .ok (sput (Hset [] [99] [107] (Uint64ToBytes 5)) (hkey [99] [107])
          (Uint64ToBytes 3), 3) :=
  ⟨by norm_num, by norm_num,
    (hincr_overflow_spec (Hset [] [99] [107] (Uint64ToBytes 5)) [99] [107]
      (-2) (by norm_num) (by norm_num)).2.2.2.2⟩

/-! ### Claim C10 -/


theorem replyShape_of_data (data : List Bytes) (h : data.length % 2 = 0) :
    ReplyPairShape
      (if data.length > 0 then Reply.mk replyOK data
       else Reply.mk replyError data) := by
  by_cases hpos : data.length > 0
  · rw [if_pos hpos]
    have hne : data ≠ [] := by
      intro hnil
      rw [hnil] at hpos
      simp at hpos
    refine ⟨h, ?_, fun hnil => absurd hnil hne⟩
    show (replyOK == replyOK) = true ↔ data ≠ []
    exact iff_of_true (by simp) hne
  · rw [if_neg hpos]
    have hnil : data = [] := by
      rw [← List.length_eq_zero]
      omega
    refine ⟨h, ?_, fun _ => ⟨rfl, ?_⟩⟩
    · show (replyError == replyOK) = true ↔ data ≠ []
      refine iff_of_false ?_ (not_not.mpr hnil)
      intro habs
      rw [beq_iff_eq] at habs
      exact reply_strings_distinct.1 habs.symm
    · show (replyError == replyNotFound) = false
      rw [Bool.eq_false_iff]
      intro habs
      rw [beq_iff_eq] at habs
      exact reply_strings_distinct.2.2 habs

theorem hscanLoop_even (realKey : Bytes) (stripLen : Nat)
    (l : List (Bytes × Bytes)) (limit : Int) :
    (hscanLoop realKey stripLen l limit).length % 2 = 0 := by
  rw [hscanLoop_eq, pairsFlatten_length]
  omega

theorem hrscanLoop_even (stripLen : Nat) (l : List (Bytes × Bytes))
    (limit : Int) : (hrscanLoop stripLen l limit).length % 2 = 0 := by
  rw [hrscanLoop_eq, pairsFlatten_length]
  omega

theorem zscanLoop_even (realKey : Bytes) (scoreBegin : Nat)
    (l : List (Bytes × Bytes)) (limit : Int) :
    (zscanLoop realKey scoreBegin l limit).length % 2 = 0 := by
  rw [zscanLoop_eq, pairsFlatten_length]
  omega

theorem zrscanLoop_even (realKey : Bytes) (scoreBegin : Nat)
    (l : List (Bytes × Bytes)) (limit : Int) :
    (zrscanLoop realKey scoreBegin l limit).length % 2 = 0 := by
  rw [zrscanLoop_eq, pairsFlatten_length]
  omega

theorem mgetLoop_even (st : Store) (keyPfx : Bytes) (keys : List Bytes) :
    (mgetLoop st keyPfx keys).length % 2 = 0 := by
  rw [mgetLoop_eq, pairsFlatten_length]
  omega

/-- Claim C10 (confirmed): every `Reply` of the seven listed read
operations has even `Data`, is `OK` iff at least one pair was collected,
and an empty match yields the generic error status — never the not-found
status — so `Reply.NotFound` is false for an empty scan.  (The pure store
model never reports an iterator error, matching the claim's "store reports
no error" proviso.) -/
theorem scan_reply_shape (st : Store) (name keyStart scoreStart pfx : Bytes)
    (keys : List Bytes) (limit : Int) :
    ReplyPairShape (Hscan st name keyStart limit) ∧
    ReplyPairShape ( Hprefix st name pfx limit) ∧
    ReplyPairShape (Hrscan st name keyStart limit) ∧
    ReplyPairShape (Hmget st name keys) ∧
    ReplyPairShape (Zscan st name keyStart scoreStart limit) ∧
    ReplyPairShape (Zrscan st name keyStart scoreStart limit) ∧
    ReplyPairShape (Zmget st name keys) :=
  ⟨replyShape_of_data _ (hscanLoop_even ..),
   replyShape_of_data _ (hscanLoop_even ..),
   replyShape_of_data _ (hrscanLoop_even ..),
   replyShape_of_data _ (mgetLoop_even ..),
   replyShape_of_data _ (zscanLoop_even ..),
   replyShape_of_data _ (zrscanLoop_even ..),
   replyShape_of_data _ (mgetLoop_even ..)⟩

/-! ### Bridges and range facts shared by the scan claims -/

theorem Bconcat_two (a b : Bytes) : Bconcat [a, b] = a ++ b := by
  simp [Bconcat]

theorem mkReplyData (c : Prop) [Decidable c] (a b : String) (d : List Bytes) :
    (if c then Reply.mk a d else Reply.mk b d).Data = d := by
  by_cases h : c
  · rw [if_pos h]
  · rw [if_neg h]

theorem hkey_eq_pfx_append (name k : Bytes) :
    hkey name k = Bconcat [hashPfx, name, splitChar] ++ k := by
  simp [hkey, Bconcat]

theorem hashPfx_valid {name : Bytes} (hname : ValidBytes name) :
    ValidBytes (Bconcat [hashPfx, name, splitChar]) := by
  intro x hx
  simp only [Bconcat, hashPfx, splitChar, List.append_nil, List.mem_append,
    List.mem_singleton, List.mem_cons, List.not_mem_nil, or_false] at hx
  rcases hx with rfl | hx | rfl
  · omega
  · exact hname x hx
  · omega

theorem inRange_mono_start {s1 s2 k : Bytes} {lim : Option Bytes}
    (h12 : lexLe s1 s2 = true) (h : inRange s2 lim k = true) :
    inRange s1 lim k = true := by
  simp only [inRange, Bool.and_eq_true] at h ⊢
  exact ⟨lexLe_trans h12 h.1, h.2⟩

/-- Every entry the forward `Hscan`-style iteration visits extends the
bucket encoding `p` and lies in the store. -/
theorem hscan_range_mem {st : Store} {p keyStart : Bytes}
    (hv : ValidStore st) (hp : ValidBytes p) {e : Bytes × Bytes}
    (he : e ∈ (rangeKeys st (p ++ keyStart) (bytesPfxLimit p)).filter
      (fun e => lexLt (p ++ keyStart) e.1)) :
    ∃ m, e.1 = p ++ m ∧ e ∈ st ∧ lexLt keyStart m = true := by
  have he' := List.mem_filter.1 he
  have hst := mem_rangeKeys.1 he'.1
  have hpass : lexLt (p ++ keyStart) e.1 = true := by
    have := he'.2
    simpa using this
  have hin : inRange p (bytesPfxLimit p) e.1 = true :=
    inRange_mono_start (lexLe_self_append p keyStart) hst.2
  have hpfx : p <+: e.1 :=
    (inRange_bytesPfxLimit_iff hp (hv e hst.1)).1 hin
  obtain ⟨m, hm⟩ := hpfx
  refine ⟨m, hm.symm, hst.1, ?_⟩
  rw [← hm, lexLt_append_left] at hpass
  exact hpass

/-- Every entry the reverse `Hrscan` iteration visits (range
`[p, p ++ keyStart)`) extends `p` with a member below `keyStart`. -/
theorem hrscan_range_mem {st : Store} {p keyStart : Bytes}
    {e : Bytes × Bytes}
    (he : e ∈ rangeKeys st p (some (p ++ keyStart))) :
    ∃ m, e.1 = p ++ m ∧ e ∈ st ∧ lexLt m keyStart = true := by
  have hst := mem_rangeKeys.1 he
  obtain ⟨h1, h2⟩ := inRange_some.1 hst.2
  have hpfx : p <+: e.1 := sandwich_append h1 h2
  obtain ⟨m, hm⟩ := hpfx
  refine ⟨m, hm.symm, hst.1, ?_⟩
  rw [← hm, lexLt_append_left] at h2
  exact h2

/-! ### Claim C5 -/

/-- Claim C5 counterexample: with `limit = 0` (a legal `int` argument),
`Hscan` returns every matching pair rather than at most `0` of them — the
loop's `n == limit` break never fires for a non-positive limit. -/
theorem hscan_limit_counterexample :
    ¬ (((Hscan (Hset [] [104] [97] [118]) [104] [] 0).List.length : Int) ≤ 0) := by
  decide

/-- Claim C5 as amended (the pair-count bound holds for positive limits;
a non-positive limit returns all matching pairs): pairs returned by
`Hscan` never include `startKey`, number at most `limit` when
`1 ≤ limit`, are in strictly ascending member order, each member is the
stored key with the bucket encoding stripped (and its value), and every
member is strictly greater than `startKey`. -/
theorem hscan_spec (st : Store) (name keyStart : Bytes) (limit : Int)
    (hs : SortedStore st) (hv : ValidStore st) (hname : ValidBytes name) :
    (∀ e ∈ (Hscan st name keyStart limit).List,
      lexLt keyStart e.Key = true) ∧
    (∀ e ∈ (Hscan st name keyStart limit).List, e.Key ≠ keyStart) ∧
    (1 ≤ limit →
      ((Hscan st name keyStart limit).List.length : Int) ≤ limit) ∧
    List.Pairwise (fun a b => lexLt a.Key b.Key = true)
      (Hscan st name keyStart limit).List ∧
    (∀ e ∈ (Hscan st name keyStart limit).List,
      sget st (hkey name e.Key) = some e.Value) := by
  have hp : ValidBytes (Bconcat [hashPfx, name, splitChar]) :=
    hashPfx_valid hname
  set p := Bconcat [hashPfx, name, splitChar] with hpdef
  have hdata : (Hscan st name keyStart limit).Data =
      hscanLoop (Bconcat [p, keyStart]) p.length
        (rangeKeys st (Bconcat [p, keyStart]) (bytesPfxLimit p)) limit :=
    mkReplyData ..
  rw [Bconcat_two] at hdata
  have hlist : (Hscan st name keyStart limit).List =
      (takeI limit
        (((rangeKeys st (p ++ keyStart) (bytesPfxLimit p)).filter
            (fun e => lexLt (p ++ keyStart) e.1)).map
          (fun e => (e.1.drop p.length, e.2)))).map
        (fun pr => Entry.mk pr.1 pr.2) := by
    rw [Reply.List, hdata, hscanLoop_eq, pairUp_pairsFlatten]
  have hmem : ∀ e ∈ (Hscan st name keyStart limit).List,
      ∃ m v, e = Entry.mk m v ∧ (p ++ m, v) ∈ st ∧ lexLt keyStart m = true := by
    intro e he
    rw [hlist] at he
    obtain ⟨pr, hpr, rfl⟩ := List.mem_map.1 he
    have hpr' := mem_takeI hpr
    obtain ⟨ent, hent, hext⟩ := List.mem_map.1 hpr'
    obtain ⟨m, hm, hst, hlt⟩ := hscan_range_mem hv hp hent
    refine ⟨m, ent.2, ?_, ?_, hlt⟩
    · rw [← hext, hm, List.drop_left]
    · rw [← hm]
      exact hst
  refine ⟨?_, ?_, ?_, ?_, ?_⟩
  · intro e he
    obtain ⟨m, v, rfl, _, hlt⟩ := hmem e he
    exact hlt
  · intro e he
    obtain ⟨m, v, rfl, _, hlt⟩ := hmem e he
    intro habs
    rw [show Entry.Key (Entry.mk m v) = m from rfl] at habs
    rw [habs, lexLt_irrefl] at hlt
    exact Bool.false_ne_true hlt
  · intro hl
    rw [hlist, List.length_map]
    have := takeI_length_le hl
      (((rangeKeys st (p ++ keyStart) (bytesPfxLimit p)).filter
          (fun e => lexLt (p ++ keyStart) e.1)).map
        (fun e => (e.1.drop p.length, e.2)))
    omega
  · rw [hlist]
    refine List.pairwise_map.2 ?_
    refine List.Pairwise.sublist (takeI_sublist ..) ?_
    refine List.pairwise_map.2 ?_
    have hpw : List.Pairwise (fun a b : Bytes × Bytes => lexLt a.1 b.1 = true)
        ((rangeKeys st (p ++ keyStart) (bytesPfxLimit p)).filter
          (fun e => lexLt (p ++ keyStart) e.1)) :=
      List.Pairwise.sublist (List.filter_sublist _)
        (rangeKeys_pairwise hs _ _)
    refine hpw.imp_of_mem ?_
    intro a b ha hb hab
    obtain ⟨ma, hma, _, _⟩ := hscan_range_mem hv hp ha
    obtain ⟨mb, hmb, _, _⟩ := hscan_range_mem hv hp hb
    show lexLt (a.1.drop p.length) (b.1.drop p.length) = true
    rw [hma, hmb, List.drop_left, List.drop_left]
    rw [hma, hmb, lexLt_append_left] at hab
    exact hab
  · intro e he
    obtain ⟨m, v, rfl, hst, _⟩ := hmem e he
    show sget st (hkey name m) = some v
    rw [hkey_eq_pfx_append]
    exact mem_sget hs hst

/-- Witness for C5 on a one-entry bucket with `limit = 5`. -/
theorem hscan_spec_witness :
    SortedStore (Hset [] [104] [97] [118]) ∧
      ValidStore (Hset [] [104] [97] [118]) ∧ ValidBytes [104] ∧
      ((∀ e ∈ (Hscan (Hset [] [104] [97] [118]) [104] [] 5).List,
        lexLt [] e.Key = true) ∧
      (∀ e ∈ (Hscan (Hset [] [104] [97] [118]) [104] [] 5).List,
        e.Key ≠ []) ∧
      (1 ≤ (5 : Int) →
        (((Hscan (Hset [] [104] [97] [118]) [104] [] 5).List.length : Int) ≤ 5)) ∧
      List.Pairwise (fun a b => lexLt a.Key b.Key = true)
        (Hscan (Hset [] [104] [97] [118]) [104] [] 5).List ∧
      (∀ e ∈ (Hscan (Hset [] [104] [97] [118]) [104] [] 5).List,
        sget (Hset [] [104] [97] [118]) (hkey [104] e.Key) = some e.Value)) :=
  ⟨by decide, by decide, by decide,
    hscan_spec (Hset [] [104] [97] [118]) [104] [] 5
      (by decide) (by decide) (by decide)⟩

/-! ### Claim C9 -/

/-- Claim C9 (confirmed): for a non-empty `startKey`, `Hrscan` returns
only members strictly below `startKey` (range upper bound
`keyPrefix ‖ startKey` is exclusive, with no in-loop comparison), in
strictly descending member order, never `startKey` itself; each returned
member is the stored key with the bucket encoding stripped. -/
theorem hrscan_spec (st : Store) (name keyStart : Bytes) (limit : Int)
    (hs : SortedStore st) (hk : keyStart ≠ []) :
    (∀ e ∈ (Hrscan st name keyStart limit).List,
      lexLt e.Key keyStart = true) ∧
    (∀ e ∈ (Hrscan st name keyStart limit).List, e.Key ≠ keyStart) ∧
    List.Pairwise (fun a b => lexLt b.Key a.Key = true)
      (Hrscan st name keyStart limit).List ∧
    (∀ e ∈ (Hrscan st name keyStart limit).List,
      sget st (hkey name e.Key) = some e.Value) := by
  set p := Bconcat [hashPfx, name, splitChar] with hpdef
  have hiflen : p.length < (Bconcat [p, keyStart]).length := by
    rw [Bconcat_two, List.length_append]
    have := List.length_pos.2 hk
    omega
  have hdata : (Hrscan st name keyStart limit).Data =
      hrscanLoop p.length
        ((rangeKeys st p
          (if p.length < (Bconcat [p, keyStart]).length
           then some (Bconcat [p, keyStart]) else bytesPfxLimit p)).reverse)
        limit :=
    mkReplyData ..
  rw [if_pos hiflen, Bconcat_two] at hdata
  have hlist : (Hrscan st name keyStart limit).List =
      (takeI limit
        (((rangeKeys st p (some (p ++ keyStart))).reverse).map
          (fun e => (e.1.drop p.length, e.2)))).map
        (fun pr => Entry.mk pr.1 pr.2) := by
    rw [Reply.List, hdata, hrscanLoop_eq, pairUp_pairsFlatten]
  have hmem : ∀ e ∈ (Hrscan st name keyStart limit).List,
      ∃ m v, e = Entry.mk m v ∧ (p ++ m, v) ∈ st ∧ lexLt m keyStart = true := by
    intro e he
    rw [hlist] at he
    obtain ⟨pr, hpr, rfl⟩ := List.mem_map.1 he
    have hpr' := mem_takeI hpr
    obtain ⟨ent, hent, hext⟩ := List.mem_map.1 hpr'
    rw [List.mem_reverse] at hent
    obtain ⟨m, hm, hst, hlt⟩ := hrscan_range_mem hent
    refine ⟨m, ent.2, ?_, ?_, hlt⟩
    · rw [← hext, hm, List.drop_left]
    · rw [← hm]
      exact hst
  refine ⟨?_, ?_, ?_, ?_⟩
  · intro e he
    obtain ⟨m, v, rfl, _, hlt⟩ := hmem e he
    exact hlt
  · intro e he
    obtain ⟨m, v, rfl, _, hlt⟩ := hmem e he
    intro habs
    rw [show Entry.Key (Entry.mk m v) = m from rfl] at habs
    rw [habs, lexLt_irrefl] at hlt
    exact Bool.false_ne_true hlt
  · rw [hlist]
    refine List.pairwise_map.2 ?_
    refine List.Pairwise.sublist (takeI_sublist ..) ?_
    refine List.pairwise_map.2 ?_
    have hpw : List.Pairwise
        (fun a b : Bytes × Bytes => lexLt b.1 a.1 = true)
        ((rangeKeys st p (some (p ++ keyStart))).reverse) :=
      List.pairwise_reverse.2 (rangeKeys_pairwise hs _ _)
    refine hpw.imp_of_mem ?_
    intro a b ha hb hab
    rw [List.mem_reverse] at ha hb
    obtain ⟨ma, hma, _, _⟩ := hrscan_range_mem ha
    obtain ⟨mb, hmb, _, _⟩ := hrscan_range_mem hb
    show lexLt (b.1.drop p.length) (a.1.drop p.length) = true
    rw [hma, hmb, List.drop_left, List.drop_left]
    rw [hma, hmb, lexLt_append_left] at hab
    exact hab
  · intro e he
    obtain ⟨m, v, rfl, hst, _⟩ := hmem e he
    show sget st (hkey name m) = some v
    rw [hkey_eq_pfx_append]
    exact mem_sget hs hst

/-- Witness for C9 on a two-entry bucket with `startKey = [98]`. -/
theorem hrscan_spec_witness :
    SortedStore (Hset (Hset [] [104] [97] [118]) [104] [98] [119]) ∧
      ([98] : Bytes) ≠ [] ∧
      ((∀ e ∈ (Hrscan (Hset (Hset [] [104] [97] [118]) [104] [98] [119])
          [104] [98] 5).List, lexLt e.Key [98] = true) ∧
      (∀ e ∈ (Hrscan (Hset (Hset [] [104] [97] [118]) [104] [98] [119])
          [104] [98] 5).List, e.Key ≠ [98]) ∧
      List.Pairwise (fun a b => lexLt b.Key a.Key = true)
        (Hrscan (Hset (Hset [] [104] [97] [118]) [104] [98] [119])
          [104] [98] 5).List ∧
      (∀ e ∈ (Hrscan (Hset (Hset [] [104] [97] [118]) [104] [98] [119])
          [104] [98] 5).List,
        sget (Hset (Hset [] [104] [97] [118]) [104] [98] [119])
          (hkey [104] e.Key) = some e.Value)) :=
  ⟨by decide, by decide,
    hrscan_spec (Hset (Hset [] [104] [97] [118]) [104] [98] [119])
      [104] [98] 5 (by decide) (by decide)⟩

/-! ### Claim C3 -/

theorem hkey_split (name pfx m : Bytes) :
    hkey name (pfx ++ m) = Bconcat [hashPfx, name, splitChar, pfx] ++ m := by
  simp [hkey, Bconcat]

theorem hprefix_key_valid {name pfx : Bytes} (hname : ValidBytes name)
    (hpfxv : ValidBytes pfx) :
    ValidBytes (Bconcat [hashPfx, name, splitChar, pfx]) := by
  intro x hx
  simp only [Bconcat, hashPfx, splitChar, List.append_nil, List.mem_append,
    List.mem_singleton, List.mem_cons, List.not_mem_nil, or_false] at hx
  rcases hx with rfl | hx | rfl | hx
  · omega
  · exact hname x hx
  · omega
  · exact hpfxv x hx

/-- The entries `Hprefix` iterates over are exactly the stored entries
whose key strictly extends the full prefix `P`. -/
theorem hprefix_pred_eq {st : Store} {P : Bytes} (hp : ValidBytes P)
    (hv : ValidStore st) :
    (rangeKeys st P (bytesPfxLimit P)).filter (fun e => lexLt P e.1) =
      st.filter (fun e => decide (P <+: e.1) && !(decide (e.1 = P))) := by
  rw [rangeKeys, List.filter_filter]
  refine List.filter_congr ?_
  intro e he
  by_cases hpfx : P <+: e.1
  · obtain ⟨m, hm⟩ := hpfx
    by_cases hmnil : m = []
    · subst hmnil
      rw [List.append_nil] at hm
      rw [← hm]
      have h1 : inRange P (bytesPfxLimit P) P = true :=
        (inRange_bytesPfxLimit_iff hp hp).2 (List.prefix_refl P)
      rw [h1, lexLt_irrefl]
      simp
    · have hvk : ValidBytes e.1 := hv e he
      rw [← hm] at hvk ⊢
      have h1 : inRange P (bytesPfxLimit P) (P ++ m) = true :=
        (inRange_bytesPfxLimit_iff hp hvk).2 ⟨m, rfl⟩
      have h2 : ¬ (P ++ m = P) := by
        intro habs
        apply hmnil
        have := congrArg List.length habs
        rw [List.length_append] at this
        rw [← List.length_eq_zero]
        omega
      rw [h1, lexLt_self_append _ hmnil]
      simp [h2]
  · have h1 : inRange P (bytesPfxLimit P) e.1 = false := by
      rw [Bool.eq_false_iff]
      intro habs
      exact hpfx ((inRange_bytesPfxLimit_iff hp (hv e he)).1 habs)
    rw [h1]
    simp [hpfx]

/-- Claim C3 counterexample: `Hprefix` strips the caller-supplied member
prefix too.  Storing member `[97, 98]` and listing prefix `[97]` returns
member `[98]`, which does not begin with `[97]`; and with `limit = 0` the
listing is unbounded rather than empty. -/
theorem hprefix_strip_counterexample :
    ( Hprefix (Hset [] [104] [97, 98] [118]) [104] [97] 10).Data =
        [[98], [118]] ∧
      ¬ ([97] <+: [98]) ∧
      ¬ ((( Hprefix (Hset [] [104] [97, 98] [118]) [104] [97] 0).List.length :
        Int) ≤ 0) := by
  decide

/-- Claim C3 as amended: each member returned by `Hprefix` is the stored
key with the bucket encoding *and* the caller-supplied `memberPrefix`
stripped (the stored member is `memberPrefix ++ e.Key`); the member equal
to `memberPrefix` itself is excluded; results are in ascending order, at
most `limit` of them when `1 ≤ limit`; and every stored member strictly
extending `memberPrefix` is returned (limit permitting, a non-positive
limit meaning unbounded). -/
theorem hprefix_spec (st : Store) (name pfx : Bytes) (limit : Int)
    (hs : SortedStore st) (hv : ValidStore st) (hname : ValidBytes name)
    (hpfxv : ValidBytes pfx) :
    (∀ e ∈ ( Hprefix st name pfx limit).List,
      sget st (hkey name (pfx ++ e.Key)) = some e.Value) ∧
    (∀ e ∈ ( Hprefix st name pfx limit).List, e.Key ≠ []) ∧
    (1 ≤ limit →
      ((( Hprefix st name pfx limit).List.length : Int) ≤ limit)) ∧
    List.Pairwise (fun a b => lexLt a.Key b.Key = true)
      ( Hprefix st name pfx limit).List ∧
    ((limit ≤ 0 ∨ ((st.filter fun e =>
        decide (Bconcat [hashPfx, name, splitChar, pfx] <+: e.1) &&
          !(decide (e.1 = Bconcat [hashPfx, name, splitChar, pfx]))).length :
        Int) ≤ limit) →
      ∀ e ∈ st, ∀ m, e.1 = hkey name (pfx ++ m) → m ≠ [] →
        Entry.mk m e.2 ∈ ( Hprefix st name pfx limit).List) := by
  have hp : ValidBytes (Bconcat [hashPfx, name, splitChar, pfx]) :=
    hprefix_key_valid hname hpfxv
  set P := Bconcat [hashPfx, name, splitChar, pfx] with hPdef
  have hdata : ( Hprefix st name pfx limit).Data =
      hscanLoop P P.length (rangeKeys st P (bytesPfxLimit P)) limit :=
    mkReplyData ..
  have hlist : ( Hprefix st name pfx limit).List =
      (takeI limit
        ((st.filter (fun e => decide (P <+: e.1) && !(decide (e.1 = P)))).map
          (fun e => (e.1.drop P.length, e.2)))).map
        (fun pr => Entry.mk pr.1 pr.2) := by
    rw [Reply.List, hdata, hscanLoop_eq, hprefix_pred_eq hp hv,
      pairUp_pairsFlatten]
  have hmem : ∀ e ∈ ( Hprefix st name pfx limit).List,
      ∃ m v, e = Entry.mk m v ∧ (P ++ m, v) ∈ st ∧ m ≠ [] := by
    intro e he
    rw [hlist] at he
    obtain ⟨pr, hpr, rfl⟩ := List.mem_map.1 he
    have hpr' := mem_takeI hpr
    obtain ⟨ent, hent, hext⟩ := List.mem_map.1 hpr'
    have hent' := List.mem_filter.1 hent
    have hcond := hent'.2
    rw [Bool.and_eq_true, decide_eq_true_eq, Bool.not_eq_true',
      decide_eq_false_iff_not] at hcond
    obtain ⟨⟨m, hm⟩, hne⟩ := hcond
    refine ⟨m, ent.2, ?_, ?_, ?_⟩
    · rw [← hext, ← hm, List.drop_left]
    · rw [hm]
      exact hent'.1
    · intro habs
      subst habs
      rw [List.append_nil] at hm
      exact hne hm.symm
  refine ⟨?_, ?_, ?_, ?_, ?_⟩
  · intro e he
    obtain ⟨m, v, rfl, hst, _⟩ := hmem e he
    show sget st (hkey name (pfx ++ m)) = some v
    rw [hkey_split]
    exact mem_sget hs hst
  · intro e he
    obtain ⟨m, v, rfl, _, hne⟩ := hmem e he
    exact hne
  · intro hl
    rw [hlist, List.length_map]
    have := takeI_length_le hl
      ((st.filter (fun e => decide (P <+: e.1) && !(decide (e.1 = P)))).map
        (fun e => (e.1.drop P.length, e.2)))
    omega
  · rw [hlist]
    refine List.pairwise_map.2 ?_
    refine List.Pairwise.sublist (takeI_sublist ..) ?_
    refine List.pairwise_map.2 ?_
    have hpw : List.Pairwise (fun a b : Bytes × Bytes => lexLt a.1 b.1 = true)
        (st.filter (fun e => decide (P <+: e.1) && !(decide (e.1 = P)))) :=
      List.Pairwise.sublist (List.filter_sublist _) hs
    refine hpw.imp_of_mem ?_
    intro a b ha hb hab
    have ha' := (List.mem_filter.1 ha).2
    have hb' := (List.mem_filter.1 hb).2
    rw [Bool.and_eq_true, decide_eq_true_eq] at ha' hb'
    obtain ⟨ma, hma⟩ := ha'.1
    obtain ⟨mb, hmb⟩ := hb'.1
    show lexLt (a.1.drop P.length) (b.1.drop P.length) = true
    rw [← hma, ← hmb, List.drop_left, List.drop_left]
    rw [← hma, ← hmb, lexLt_append_left] at hab
    exact hab
  · intro hcount e he m hm hmne
    have hfull : takeI limit
        ((st.filter (fun e => decide (P <+: e.1) && !(decide (e.1 = P)))).map
          (fun e => (e.1.drop P.length, e.2))) =
        (st.filter (fun e => decide (P <+: e.1) && !(decide (e.1 = P)))).map
          (fun e => (e.1.drop P.length, e.2)) := by
      refine takeI_all ?_
      rcases hcount with h | h
      · exact Or.inl h
      · right
        rw [List.length_map]
        exact h
    have hkeyP : e.1 = P ++ m := by
      rw [hm, hkey_split]
    have hef : e ∈ st.filter
        (fun e => decide (P <+: e.1) && !(decide (e.1 = P))) := by
      rw [List.mem_filter]
      refine ⟨he, ?_⟩
      rw [Bool.and_eq_true, decide_eq_true_eq, Bool.not_eq_true',
        decide_eq_false_iff_not]
      refine ⟨⟨m, hkeyP.symm⟩, ?_⟩
      intro habs
      apply hmne
      rw [habs] at hkeyP
      have := congrArg List.length hkeyP
      rw [List.length_append] at this
      rw [← List.length_eq_zero]
      omega
    rw [hlist, hfull]
    have hpair : (e.1.drop P.length, e.2) ∈
        (st.filter (fun e => decide (P <+: e.1) && !(decide (e.1 = P)))).map
          (fun e => (e.1.drop P.length, e.2)) :=
      List.mem_map_of_mem _ hef
    have hdrop : e.1.drop P.length = m := by
      rw [hkeyP, List.drop_left]
    rw [hdrop] at hpair
    exact List.mem_map_of_mem (fun pr => Entry.mk pr.1 pr.2) hpair

/-- Witness for C3: prefix `[97]` over members `[97, 98]` and `[99]`. -/
theorem hprefix_spec_witness :
    SortedStore (Hset (Hset [] [104] [97, 98] [118]) [104] [99] [120]) ∧
      ValidStore (Hset (Hset [] [104] [97, 98] [118]) [104] [99] [120]) ∧
      ValidBytes [104] ∧ ValidBytes [97] ∧
      (∀ e ∈ ( Hprefix (Hset (Hset [] [104] [97, 98] [118]) [104] [99] [120])
          [104] [97] 10).List,
        sget (Hset (Hset [] [104] [97, 98] [118]) [104] [99] [120])
          (hkey [104] ([97] ++ e.Key)) = some e.Value) :=
  ⟨by decide, by decide, by decide, by decide,
    (hprefix_spec (Hset (Hset [] [104] [97, 98] [118]) [104] [99] [120])
      [104] [97] 10 (by decide) (by decide) (by decide) (by decide)).1⟩

/-! ### Claim C2: helpers -/

theorem bytesPfxLimit_snoc (q : Bytes) {c : Nat} (hc : c < 255) :
    bytesPfxLimit (q ++ [c]) = some (q ++ [c + 1]) := by
  rw [bytesPfxLimit]
  have hrev : (q ++ [c]).reverse = c :: q.reverse := by
    rw [List.reverse_append]
    rfl
  rw [hrev, List.dropWhile_cons, if_neg (by simp; omega)]
  show some (((c + 1) :: q.reverse).reverse) = some (q ++ [c + 1])
  rw [List.reverse_cons, List.reverse_reverse]

theorem zokeyB_eq (name sb m : Bytes) :
    zokeyB name sb m =
      Bconcat [zetKeyPfx, name, splitChar] ++ (sb ++ 28 :: m) := by
  simp [zokeyB, Bconcat, splitChar]


/-- The `Zscan` start cut `score ‖ 0x1d` versus an order-index suffix
`score' ‖ 0x1c ‖ member`: the cut is below the suffix iff the score band
is strictly above. -/
theorem zscan_cmp {s0 s : Nat} (hs0 : s0 < 2 ^ 64) (hs : s < 2 ^ 64)
    (m : Bytes) :
    lexLt (Uint64ToBytes s0 ++ [29]) (Uint64ToBytes s ++ 28 :: m) =
      decide (s0 < s) := by
  by_cases he : s0 = s
  · subst he
    rw [lexLt_append_left]
    have h1 : lexLt [29] (28 :: m) = false := by
      rw [Bool.eq_false_iff]
      intro habs
      rcases lexLt_cons_iff.1 habs with h' | ⟨h', _⟩
      · omega
      · omega
    rw [h1, eq_comm, decide_eq_false_iff_not]
    omega
  · rw [lexLt_append_eqlen _ _
      (by rw [Uint64ToBytes_length, Uint64ToBytes_length])
      (fun habs => he (Uint64ToBytes_inj hs0 hs habs)),
      lexLt_Uint64ToBytes hs0 hs]

theorem zscan_cmp_rev {s0 s : Nat} (hs0 : s0 < 2 ^ 64) (hs : s < 2 ^ 64)
    (m : Bytes) :
    lexLt (Uint64ToBytes s ++ 28 :: m) (Uint64ToBytes s0 ++ [29]) =
      decide (s ≤ s0) := by
  by_cases he : s = s0
  · subst he
    rw [lexLt_append_left]
    have h1 : lexLt (28 :: m) [29] = true := lexLt_cons_iff.2 (Or.inl (by omega))
    rw [h1, eq_comm, decide_eq_true_eq]
  · rw [lexLt_append_eqlen _ _
      (by rw [Uint64ToBytes_length, Uint64ToBytes_length])
      (fun habs => he (Uint64ToBytes_inj hs hs0 habs)),
      lexLt_Uint64ToBytes hs hs0]
    have h2 : s < s0 ↔ s ≤ s0 := by omega
    simp only [h2]

/-- The score slice of a well-formed order-index key suffix. -/
theorem zokey_take_score (s : Nat) (m : Bytes) :
    (Uint64ToBytes s ++ 28 :: m).take 8 = Uint64ToBytes s := by
  rw [← Uint64ToBytes_length s]
  exact List.take_left ..

/-- Decoding the suffix of a well-formed order-index key. -/
theorem zokey_decode (s : Nat) (m : Bytes) :
    BytesToUint64 (Uint64ToBytes s ++ 28 :: m) = fromDigits (Uint64ToBytes s) := by
  rw [BytesToUint64,
    if_neg (by
      rw [List.length_append, Uint64ToBytes_length, List.length_cons]
      omega),
    zokey_take_score]

theorem zokey_drop_key (s : Nat) (m : Bytes) :
    (Uint64ToBytes s ++ 28 :: m).drop 9 = m := by
  rw [show (9 : Nat) = (Uint64ToBytes s).length + 1 from by
    rw [Uint64ToBytes_length]]
  rw [List.drop_append]
  rfl

theorem zetKeyPfx_valid {name : Bytes} (hname : ValidBytes name) :
    ValidBytes (Bconcat [zetKeyPfx, name, splitChar]) := by
  intro x hx
  simp only [Bconcat, zetKeyPfx, splitChar, List.append_nil, List.mem_append,
    List.mem_singleton, List.mem_cons, List.not_mem_nil, or_false] at hx
  rcases hx with rfl | hx | rfl
  · omega
  · exact hname x hx
  · omega

theorem okp_snoc (name : Bytes) :
    Bconcat [zetKeyPfx, name, splitChar] = (31 :: name) ++ [28] := by
  simp [Bconcat, zetKeyPfx, splitChar]

/-- The entries `Zscan` with empty `startKey` iterates over and passes are
exactly the stored order-index entries whose score strictly exceeds
`s0`. -/
theorem zscan_pred_eq {st : Store} {name : Bytes} {s0 : Nat}
    (hv : ValidStore st) (hname : ValidBytes name) (hwf : WfZOrder st name)
    (hs0 : s0 < 2 ^ 64) :
    (rangeKeys st
        (Bconcat [zetKeyPfx, name, splitChar] ++ (Uint64ToBytes s0 ++ [29]))
        (bytesPfxLimit (Bconcat [zetKeyPfx, name, splitChar]))).filter
      (fun e => lexLt
        (Bconcat [zetKeyPfx, name, splitChar] ++ (Uint64ToBytes s0 ++ [29]))
        e.1) =
    st.filter (fun e =>
      decide (Bconcat [zetKeyPfx, name, splitChar] <+: e.1) &&
        decide (s0 < BytesToUint64
          (e.1.drop (Bconcat [zetKeyPfx, name, splitChar]).length))) := by
  set okp := Bconcat [zetKeyPfx, name, splitChar] with hokp
  have hokpv : ValidBytes okp := zetKeyPfx_valid hname
  rw [rangeKeys, List.filter_filter]
  refine List.filter_congr ?_
  intro e he
  by_cases hpfx : okp <+: e.1
  · obtain ⟨s, m, hs64, hk⟩ := hwf e he hpfx
    have hk' : e.1 = okp ++ (Uint64ToBytes s ++ 28 :: m) := by
      rw [hk, zokeyB_eq]
    have hupper : inRange okp (bytesPfxLimit okp) e.1 = true :=
      (inRange_bytesPfxLimit_iff hokpv (hv e he)).2 hpfx
    simp only [inRange, Bool.and_eq_true] at hupper
    rw [hk'] at hupper ⊢
    have hdec : BytesToUint64
        ((okp ++ (Uint64ToBytes s ++ 28 :: m)).drop okp.length) = s := by
      rw [List.drop_left, zokey_decode, fromDigits_Uint64ToBytes hs64]
    have hpass : lexLt (okp ++ (Uint64ToBytes s0 ++ [29]))
        (okp ++ (Uint64ToBytes s ++ 28 :: m)) = decide (s0 < s) := by
      rw [lexLt_append_left]
      exact zscan_cmp hs0 hs64 m
    have hle : lexLe (okp ++ (Uint64ToBytes s0 ++ [29]))
        (okp ++ (Uint64ToBytes s ++ 28 :: m)) = !(decide (s ≤ s0)) := by
      rw [lexLe, lexLt_append_left, zscan_cmp_rev hs0 hs64 m]
    simp only [inRange, hpass, hle, hdec, hupper.2,
      decide_eq_true_eq]
    have hptrue : decide (okp <+: okp ++ (Uint64ToBytes s ++ 28 :: m)) =
        true := by
      rw [decide_eq_true_eq]
      exact ⟨_, rfl⟩
    rw [hptrue]
    by_cases hss : s0 < s
    · have h1 : ¬ (s ≤ s0) := by omega
      simp [hss, h1]
    · have h1 : s ≤ s0 := by omega
      simp [hss, h1]
  · have h2 : inRange (okp ++ (Uint64ToBytes s0 ++ [29]))
        (bytesPfxLimit okp) e.1 = false := by
      rw [Bool.eq_false_iff]
      intro habs
      exact hpfx ((inRange_bytesPfxLimit_iff hokpv (hv e he)).1
        (inRange_mono_start (lexLe_self_append okp (Uint64ToBytes s0 ++ [29]))
          habs))
    rw [h2, Bool.and_false]
    simp [hpfx]

/-- Claim C2 counterexample: member `[109]` of set `[122]` is stored with
score exactly `5`, yet `Zscan` with empty `startKey` and `startScore = 5`
returns nothing — the iterator start
`BytesPrefix(prefix ‖ score ‖ sep).Limit` skips the whole score band. -/
theorem zscan_band_counterexample :
    Zget (Zset [] [122] [109] 5) [122] [109] = 5 ∧
      (Zscan (Zset [] [122] [109] 5) [122] [] (Uint64ToBytes 5) 10).Data =
        [] := by
  decide

/-- Claim C2 as amended: `Zscan` with empty `startKey` begins at the first
order-index entry whose score *strictly exceeds* `startScore`: every
returned pair carries a score strictly above `startScore` (so members
stored at exactly `startScore` are omitted), pairs come in ascending
`(score, member)` order, at most `limit` of them for positive `limit`,
and every stored entry with score strictly above `startScore` appears
(limit permitting; a non-positive limit returns all). -/
theorem zscan_spec (st : Store) (name : Bytes) (s0 : Nat) (limit : Int)
    (hs : SortedStore st) (hv : ValidStore st) (hname : ValidBytes name)
    (hwf : WfZOrder st name) (hs0 : s0 < 2 ^ 64) :
    (∀ e ∈ (Zscan st name [] (Uint64ToBytes s0) limit).List,
      ∃ s m v, s0 < s ∧ s < 2 ^ 64 ∧ e = Entry.mk m (Uint64ToBytes s) ∧
        (zokeyB name (Uint64ToBytes s) m, v) ∈ st) ∧
    (∀ e ∈ (Zscan st name [] (Uint64ToBytes s0) limit).List,
      e.Value ≠ Uint64ToBytes s0) ∧
    (1 ≤ limit →
      (((Zscan st name [] (Uint64ToBytes s0) limit).List.length : Int) ≤
        limit)) ∧
    List.Pairwise (fun a b =>
      lexLt (a.Value ++ 28 :: a.Key) (b.Value ++ 28 :: b.Key) = true)
      (Zscan st name [] (Uint64ToBytes s0) limit).List ∧
    ((limit ≤ 0 ∨ ((st.filter fun e =>
        decide (Bconcat [zetKeyPfx, name, splitChar] <+: e.1) &&
          decide (s0 < BytesToUint64
            (e.1.drop (Bconcat [zetKeyPfx, name, splitChar]).length))).length :
        Int) ≤ limit) →
      ∀ s m v, (zokeyB name (Uint64ToBytes s) m, v) ∈ st → s < 2 ^ 64 →
        s0 < s →
        Entry.mk m (Uint64ToBytes s) ∈
          (Zscan st name [] (Uint64ToBytes s0) limit).List) := by
  set okp := Bconcat [zetKeyPfx, name, splitChar] with hokp
  have hokpv : ValidBytes okp := zetKeyPfx_valid hname
  have hss : (if (Uint64ToBytes s0).length = 0 then Uint64ToBytes 0
      else Uint64ToBytes s0) = Uint64ToBytes s0 :=
    if_neg (by rw [Uint64ToBytes_length]; omega)
  have hok3 : Bconcat [okp, Uint64ToBytes s0, splitChar] =
      (okp ++ Uint64ToBytes s0) ++ [28] := by
    simp [Bconcat, splitChar]
  have hrk : (bytesPfxLimit (Bconcat [okp, Uint64ToBytes s0,
      splitChar])).getD [] = okp ++ (Uint64ToBytes s0 ++ [29]) := by
    rw [hok3, bytesPfxLimit_snoc _ (by omega)]
    show (okp ++ Uint64ToBytes s0) ++ [28 + 1] =
      okp ++ (Uint64ToBytes s0 ++ [29])
    rw [List.append_assoc]
  have hdata : (Zscan st name [] (Uint64ToBytes s0) limit).Data =
      zscanLoop
        ((bytesPfxLimit (Bconcat [okp,
          (if (Uint64ToBytes s0).length = 0 then Uint64ToBytes 0
           else Uint64ToBytes s0), splitChar])).getD [])
        okp.length
        (rangeKeys st
          ((bytesPfxLimit (Bconcat [okp,
            (if (Uint64ToBytes s0).length = 0 then Uint64ToBytes 0
             else Uint64ToBytes s0), splitChar])).getD [])
          (bytesPfxLimit okp))
        limit :=
    mkReplyData ..
  rw [hss, hrk] at hdata
  have hlist : (Zscan st name [] (Uint64ToBytes s0) limit).List =
      (takeI limit
        ((st.filter (fun e =>
          decide (okp <+: e.1) &&
            decide (s0 < BytesToUint64 (e.1.drop okp.length)))).map
          (fun e => (e.1.drop (okp.length + 9), (e.1.drop okp.length).take 8)))).map
        (fun pr => Entry.mk pr.1 pr.2) := by
    rw [Reply.List, hdata, zscanLoop_eq, zscan_pred_eq hv hname hwf hs0,
      pairUp_pairsFlatten]
  have hshape : ∀ e ∈ st.filter (fun e =>
      decide (okp <+: e.1) &&
        decide (s0 < BytesToUint64 (e.1.drop okp.length))),
      ∃ s m, s0 < s ∧ s < 2 ^ 64 ∧
        e.1 = okp ++ (Uint64ToBytes s ++ 28 :: m) := by
    intro e he
    have he' := List.mem_filter.1 he
    have hcond := he'.2
    rw [Bool.and_eq_true, decide_eq_true_eq, decide_eq_true_eq] at hcond
    obtain ⟨s, m, hs64, hk⟩ := hwf e he'.1 hcond.1
    have hk' : e.1 = okp ++ (Uint64ToBytes s ++ 28 :: m) := by
      rw [hk, zokeyB_eq]
    refine ⟨s, m, ?_, hs64, hk'⟩
    have := hcond.2
    rw [hk', List.drop_left, zokey_decode, fromDigits_Uint64ToBytes hs64]
      at this
    exact this
  have hmem : ∀ e ∈ (Zscan st name [] (Uint64ToBytes s0) limit).List,
      ∃ s m v, s0 < s ∧ s < 2 ^ 64 ∧ e = Entry.mk m (Uint64ToBytes s) ∧
        (zokeyB name (Uint64ToBytes s) m, v) ∈ st := by
    intro e he
    rw [hlist] at he
    obtain ⟨pr, hpr, rfl⟩ := List.mem_map.1 he
    have hpr' := mem_takeI hpr
    obtain ⟨ent, hent, hext⟩ := List.mem_map.1 hpr'
    obtain ⟨s, m, hlt, hs64, hk⟩ := hshape ent hent
    have hdropk : ent.1.drop (okp.length + 9) = m := by
      rw [hk, List.drop_append, zokey_drop_key]
    have hdrops : (ent.1.drop okp.length).take 8 = Uint64ToBytes s := by
      rw [hk, List.drop_left, zokey_take_score]
    refine ⟨s, m, ent.2, hlt, hs64, ?_, ?_⟩
    · rw [← hext, hdropk, hdrops]
    · have : ent ∈ st := (List.mem_filter.1 hent).1
      rw [zokeyB_eq, ← hk]
      exact this
  refine ⟨hmem, ?_, ?_, ?_, ?_⟩
  · intro e he
    obtain ⟨s, m, v, hlt, hs64, rfl, _⟩ := hmem e he
    show Uint64ToBytes s ≠ Uint64ToBytes s0
    intro habs
    have := Uint64ToBytes_inj hs64 hs0 habs
    omega
  · intro hl
    rw [hlist, List.length_map]
    have := takeI_length_le hl
      ((st.filter (fun e =>
        decide (okp <+: e.1) &&
          decide (s0 < BytesToUint64 (e.1.drop okp.length)))).map
        (fun e => (e.1.drop (okp.length + 9), (e.1.drop okp.length).take 8)))
    omega
  · rw [hlist]
    refine List.pairwise_map.2 ?_
    refine List.Pairwise.sublist (takeI_sublist ..) ?_
    refine List.pairwise_map.2 ?_
    have hpw : List.Pairwise (fun a b : Bytes × Bytes => lexLt a.1 b.1 = true)
        (st.filter (fun e =>
          decide (okp <+: e.1) &&
            decide (s0 < BytesToUint64 (e.1.drop okp.length)))) :=
      List.Pairwise.sublist (List.filter_sublist _) hs
    refine hpw.imp_of_mem ?_
    intro a b ha hb hab
    obtain ⟨sa, ma, _, _, hka⟩ := hshape a ha
    obtain ⟨sb, mb, _, _, hkb⟩ := hshape b hb
    show lexLt
      ((a.1.drop okp.length).take 8 ++ 28 :: a.1.drop (okp.length + 9))
      ((b.1.drop okp.length).take 8 ++ 28 :: b.1.drop (okp.length + 9)) = true
    rw [hka, hkb, List.drop_left, List.drop_left, List.drop_append,
      List.drop_append, zokey_take_score, zokey_take_score, zokey_drop_key,
      zokey_drop_key]
    rw [hka, hkb, lexLt_append_left] at hab
    exact hab
  · intro hcount s m v hst hs64 hlt
    have hfull : takeI limit
        ((st.filter (fun e =>
          decide (okp <+: e.1) &&
            decide (s0 < BytesToUint64 (e.1.drop okp.length)))).map
          (fun e => (e.1.drop (okp.length + 9), (e.1.drop okp.length).take 8))) =
        (st.filter (fun e =>
          decide (okp <+: e.1) &&
            decide (s0 < BytesToUint64 (e.1.drop okp.length)))).map
          (fun e => (e.1.drop (okp.length + 9), (e.1.drop okp.length).take 8)) := by
      refine takeI_all ?_
      rcases hcount with h | h
      · exact Or.inl h
      · right
        rw [List.length_map]
        exact h
    have hkey : (zokeyB name (Uint64ToBytes s) m : Bytes) =
        okp ++ (Uint64ToBytes s ++ 28 :: m) := zokeyB_eq ..
    have hef : (zokeyB name (Uint64ToBytes s) m, v) ∈ st.filter (fun e =>
        decide (okp <+: e.1) &&
          decide (s0 < BytesToUint64 (e.1.drop okp.length))) := by
      rw [List.mem_filter]
      refine ⟨hst, ?_⟩
      rw [Bool.and_eq_true, decide_eq_true_eq, decide_eq_true_eq]
      constructor
      · exact ⟨_, hkey.symm⟩
      · show s0 < BytesToUint64 ((zokeyB name (Uint64ToBytes s) m).drop
          okp.length)
        rw [hkey, List.drop_left, zokey_decode, fromDigits_Uint64ToBytes hs64]
        exact hlt
    rw [hlist, hfull]
    have hpair : (m, Uint64ToBytes s) ∈
        (st.filter (fun e =>
          decide (okp <+: e.1) &&
            decide (s0 < BytesToUint64 (e.1.drop okp.length)))).map
          (fun e => (e.1.drop (okp.length + 9), (e.1.drop okp.length).take 8)) := by
      refine List.mem_map.2 ⟨(zokeyB name (Uint64ToBytes s) m, v), hef, ?_⟩
      show ((zokeyB name (Uint64ToBytes s) m).drop (okp.length + 9),
        ((zokeyB name (Uint64ToBytes s) m).drop okp.length).take 8) =
        (m, Uint64ToBytes s)
      rw [hkey, List.drop_append, zokey_drop_key, List.drop_left,
        zokey_take_score]
    exact List.mem_map.2 ⟨(m, Uint64ToBytes s), hpair, rfl⟩

/-- Witness for C2: one member stored at score 6, scanned from
`startScore = 5`. -/
theorem zscan_spec_witness :
    SortedStore (Zset [] [122] [109] 6) ∧
      ValidStore (Zset [] [122] [109] 6) ∧ ValidBytes [122] ∧
      WfZOrder (Zset [] [122] [109] 6) [122] ∧ (5 : Nat) < 2 ^ 64 ∧
      (∀ e ∈ (Zscan (Zset [] [122] [109] 6) [122] []
          (Uint64ToBytes 5) 10).List,
        ∃ s m v, 5 < s ∧ s < 2 ^ 64 ∧ e = Entry.mk m (Uint64ToBytes s) ∧
          (zokeyB [122] (Uint64ToBytes s) m, v) ∈ Zset [] [122] [109] 6) := by
  have hwf : WfZOrder (Zset [] [122] [109] 6) [122] := by
    intro e he hpfx
    have hst : Zset [] [122] [109] 6 =
        [(Bconcat [zetScorePfx, [122], splitChar, [109]], Uint64ToBytes 6),
         (zokeyB [122] (Uint64ToBytes 6) [109], [])] := by decide
    rw [hst] at he
    rcases List.mem_cons.1 he with rfl | he
    · exact absurd hpfx (by decide)
    · rcases List.mem_cons.1 he with rfl | he
      · exact ⟨6, [109], by norm_num, rfl⟩
      · simp at he
  exact ⟨by decide, by decide, by decide, hwf, by norm_num,
    (zscan_spec (Zset [] [122] [109] 6) [122] 5 10
      (by decide) (by decide) (by decide) hwf (by norm_num)).1⟩

/-! ### Claim C1: key facts -/

theorem ne_of_lexLt {a b : Bytes} (h : lexLt a b = true) : a ≠ b := by
  intro he
  rw [he, lexLt_irrefl] at h
  exact Bool.false_ne_true h

theorem dkey_eq (name member : Bytes) :
    zscoreKey name member = 29 :: (name ++ 28 :: member) := by
  simp [zscoreKey, Bconcat, zetScorePfx, splitChar]

theorem okB_eq (name sb member : Bytes) :
    zokeyB name sb member = 31 :: (name ++ 28 :: (sb ++ 28 :: member)) := by
  simp [zokeyB, Bconcat, zetKeyPfx, splitChar]

theorem lexLt_dk_ok (name member sb : Bytes) :
    lexLt (zscoreKey name member) (zokeyB name sb member) = true := by
  rw [dkey_eq, okB_eq]
  exact lexLt_cons_iff.2 (Or.inl (by omega))

theorem lexLt_ok_dk (name member sb : Bytes) :
    lexLt (zokeyB name sb member) (zscoreKey name member) = false :=
  lexLt_asymm (lexLt_dk_ok name member sb)

theorem dk_ne_ok (name member sb : Bytes) :
    zscoreKey name member ≠ zokeyB name sb member :=
  ne_of_lexLt (lexLt_dk_ok name member sb)

theorem zokeyB_len (name sb member : Bytes) :
    (zokeyB name sb member).length =
      name.length + sb.length + member.length + 3 := by
  rw [okB_eq]
  simp only [List.length_cons, List.length_append]
  omega

theorem zokeyB_ne_len {sb sb' : Bytes} (name member : Bytes)
    (h : sb.length ≠ sb'.length) :
    zokeyB name sb member ≠ zokeyB name sb' member := by
  intro habs
  apply h
  have := congrArg List.length habs
  rw [zokeyB_len, zokeyB_len] at this
  omega

theorem zokeyB_ne_enc {v s : Nat} (name member : Bytes) (hv : v < 2 ^ 64)
    (hs : s < 2 ^ 64) (hne : v ≠ s) :
    zokeyB name (Uint64ToBytes v) member ≠
      zokeyB name (Uint64ToBytes s) member := by
  intro habs
  rw [okB_eq, okB_eq] at habs
  have h1 := List.cons.inj habs
  have h2 := List.append_cancel_left h1.2
  have h3 := List.cons.inj h2
  have h4 := congrArg (fun l => List.take 8 l) h3.2
  simp only [zokey_take_score] at h4
  exact hne (Uint64ToBytes_inj hv hs h4)

theorem sput_gt {k0 v0 key val : Bytes} {rest : Store}
    (h1 : lexLt key k0 = false) (h2 : key ≠ k0) :
    sput ((k0, v0) :: rest) key val = (k0, v0) :: sput rest key val := by
  rw [sput, if_neg (by simp [h1]), if_neg h2]

theorem sput_head {k0 v0 key val : Bytes} {rest : Store} (h : key = k0) :
    sput ((k0, v0) :: rest) key val = (key, val) :: rest := by
  rw [sput, if_neg (by subst h; rw [lexLt_irrefl]; simp), if_pos h]

theorem sdel_head {k0 v0 key : Bytes} {rest : Store} (h : key = k0) :
    sdel ((k0, v0) :: rest) key = rest := by
  rw [sdel, if_pos h]

theorem sdel_cons {k0 v0 key : Bytes} {rest : Store} (h : key ≠ k0) :
    sdel ((k0, v0) :: rest) key = (k0, v0) :: sdel rest key := by
  rw [sdel, if_neg h]

/-- The three-way `Zset`/`Zincr` batch applied to the empty store, when
the stale delete key misses both fresh entries. -/
theorem zbatch_nil (name member : Bytes) (v : Nat) (delKey : Bytes)
    (h1 : delKey ≠ zscoreKey name member)
    (h2 : delKey ≠ zokeyB name (Uint64ToBytes v) member) :
    writeBatch [] [.bput (zscoreKey name member) (Uint64ToBytes v),
      .bput (zokeyB name (Uint64ToBytes v) member) [], .bdel delKey] =
      zCanon name member v := by
  show sdel (sput (sput [] (zscoreKey name member) (Uint64ToBytes v))
    (zokeyB name (Uint64ToBytes v) member) []) delKey = zCanon name member v
  rw [show sput ([] : Store) (zscoreKey name member) (Uint64ToBytes v) =
    [(zscoreKey name member, Uint64ToBytes v)] from rfl]
  rw [sput_gt (lexLt_ok_dk name member _) (Ne.symm (dk_ne_ok name member _))]
  rw [show sput ([] : Store) (zokeyB name (Uint64ToBytes v) member) [] =
    [(zokeyB name (Uint64ToBytes v) member, [])] from rfl]
  rw [sdel_cons h1, sdel_cons h2]
  rfl

/-- The three-way batch applied to the canonical store: replace the direct
entry, add the fresh order entry, delete the stale one. -/
theorem zbatch_canon (name member : Bytes) {s v : Nat} (hs : s < 2 ^ 64)
    (hv : v < 2 ^ 64) (hne : v ≠ s) :
    writeBatch (zCanon name member s)
      [.bput (zscoreKey name member) (Uint64ToBytes v),
       .bput (zokeyB name (Uint64ToBytes v) member) [],
       .bdel (zokeyB name (Uint64ToBytes s) member)] =
      zCanon name member v := by
  have hnekeys : zokeyB name (Uint64ToBytes v) member ≠
      zokeyB name (Uint64ToBytes s) member := zokeyB_ne_enc name member hv hs hne
  show sdel (sput (sput (zCanon name member s) (zscoreKey name member)
    (Uint64ToBytes v)) (zokeyB name (Uint64ToBytes v) member) [])
    (zokeyB name (Uint64ToBytes s) member) = zCanon name member v
  rw [zCanon, sput_head rfl,
    sput_gt (lexLt_ok_dk name member _) (Ne.symm (dk_ne_ok name member _))]
  by_cases hcmp : lexLt (zokeyB name (Uint64ToBytes v) member)
      (zokeyB name (Uint64ToBytes s) member) = true
  · rw [show sput [(zokeyB name (Uint64ToBytes s) member, ([] : Bytes))]
      (zokeyB name (Uint64ToBytes v) member) [] =
      [(zokeyB name (Uint64ToBytes v) member, []),
       (zokeyB name (Uint64ToBytes s) member, [])] from by
        rw [sput, if_pos hcmp]]
    rw [sdel_cons (Ne.symm (dk_ne_ok name member _)),
      sdel_cons (Ne.symm hnekeys), sdel_head rfl]
    rfl
  · rw [Bool.not_eq_true] at hcmp
    rw [show sput [(zokeyB name (Uint64ToBytes s) member, ([] : Bytes))]
      (zokeyB name (Uint64ToBytes v) member) [] =
      [(zokeyB name (Uint64ToBytes s) member, []),
       (zokeyB name (Uint64ToBytes v) member, [])] from by
        rw [sput_gt hcmp hnekeys]
        rfl]
    rw [sdel_cons (Ne.symm (dk_ne_ok name member _)), sdel_head rfl]
    rfl

theorem zCanon_sget (name member : Bytes) (s : Nat) :
    sget (zCanon name member s) (zscoreKey name member) =
      some (Uint64ToBytes s) := by
  rw [zCanon, sget, if_pos rfl]

theorem mk_ne_dk (name member : Bytes) :
    zokeyB name [] member ≠ zscoreKey name member := by
  rw [okB_eq, dkey_eq]
  intro habs
  exact absurd (List.cons.inj habs).1 (by omega)

theorem mk_ne_ok (name member : Bytes) (v : Nat) :
    zokeyB name [] member ≠ zokeyB name (Uint64ToBytes v) member :=
  zokeyB_ne_len name member
    (by rw [List.length_nil, Uint64ToBytes_length]; omega)

/-! ### Claim C1: state transitions -/

theorem zset_zstate (name member : Bytes) {st : Store}
    (h : ZState name member st) (v : Nat) (hv : v < 2 ^ 64) :
    ZState name member (Zset st name member v) := by
  have hlen : ¬ (([] : Bytes) = Uint64ToBytes v) := by
    intro habs
    have := congrArg List.length habs
    rw [Uint64ToBytes_length] at this
    simp at this
  rcases h with rfl | ⟨s, hs, rfl⟩
  · right
    refine ⟨v, hv, ?_⟩
    show (if (([] : Bytes) = Uint64ToBytes v) then ([] : Store)
      else writeBatch []
        [.bput (zscoreKey name member) (Uint64ToBytes v),
         .bput (zokeyB name (Uint64ToBytes v) member) [],
         .bdel (zokeyB name [] member)]) = zCanon name member v
    rw [if_neg hlen]
    exact zbatch_nil name member v _ (mk_ne_dk name member)
      (mk_ne_ok name member v)
  · have hget := zCanon_sget name member s
    by_cases hvs : v = s
    · subst hvs
      right
      refine ⟨v, hv, ?_⟩
      simp only [Zset]
      rw [hget]
      simp
    · right
      refine ⟨v, hv, ?_⟩
      simp only [Zset]
      rw [hget]
      rw [show (some (Uint64ToBytes s)).getD [] = Uint64ToBytes s from rfl]
      rw [if_neg (fun habs => hvs (Uint64ToBytes_inj hs hv habs).symm)]
      exact zbatch_canon name member hs hv hvs

theorem zincr_zstate (name member : Bytes) {st : Store}
    (h : ZState name member st) (step : Int) (h0 : step ≠ 0)
    (hlo : -(2 ^ 63) ≤ step) (hhi : step < 2 ^ 63) :
    ZState name member (applyZOp name member st (.zincr step)) := by
  rcases h with rfl | ⟨s, hs, rfl⟩
  · by_cases hpos : 0 < step
    · have ht1 : 1 ≤ step.toNat := by omega
      have ht2 : 0 + step.toNat < 2 ^ 64 := by omega
      have hok : Zincr [] name member step = .ok (writeBatch []
          [.bput (zscoreKey name member) (Uint64ToBytes (0 + step.toNat)),
           .bput (zokeyB name (Uint64ToBytes (0 + step.toNat)) member) [],
           .bdel (zokeyB name (Uint64ToBytes 0) member)], 0 + step.toNat) := by
        simp only [Zincr]
        rw [show Zget [] name member = 0 from rfl]
        rw [if_pos hpos, if_neg (by rw [scoreMax]; omega)]
      right
      refine ⟨0 + step.toNat, ht2, ?_⟩
      show (match Zincr [] name member step with
        | .ok p => p.1
        | .error _ => ([] : Store)) = zCanon name member (0 + step.toNat)
      rw [hok]
      show writeBatch [] _ = zCanon name member (0 + step.toNat)
      exact zbatch_nil name member (0 + step.toNat) _
        (Ne.symm (dk_ne_ok name member _))
        (zokeyB_ne_enc name member (by omega) ht2 (by omega))
    · have hneg : step < 0 := by omega
      have herr : Zincr [] name member step = .error "overflow number" := by
        simp only [Zincr]
        rw [show Zget [] name member = 0 from rfl]
        rw [if_neg hpos, if_pos (by omega)]
      left
      show (match Zincr [] name member step with
        | .ok p => p.1
        | .error _ => ([] : Store)) = []
      rw [herr]
  · have hget := zCanon_sget name member s
    have hzget : Zget (zCanon name member s) name member = s := by
      simp only [Zget]
      rw [hget]
      exact BytesToUint64_Uint64ToBytes hs
    by_cases hpos : 0 < step
    · by_cases hover : scoreMax - step.toNat < s
      · have herr : Zincr (zCanon name member s) name member step =
            .error "overflow number" := by
          simp only [Zincr]
          rw [hzget, if_pos hpos, if_pos hover]
        right
        refine ⟨s, hs, ?_⟩
        show (match Zincr (zCanon name member s) name member step with
          | .ok p => p.1
          | .error _ => zCanon name member s) = zCanon name member s
        rw [herr]
      · have hnew : s + step.toNat < 2 ^ 64 := by rw [scoreMax] at hover; omega
        have hne : s + step.toNat ≠ s := by omega
        have hok : Zincr (zCanon name member s) name member step =
            .ok (writeBatch (zCanon name member s)
              [.bput (zscoreKey name member) (Uint64ToBytes (s + step.toNat)),
               .bput (zokeyB name (Uint64ToBytes (s + step.toNat)) member) [],
               .bdel (zokeyB name (Uint64ToBytes s) member)],
              s + step.toNat) := by
          simp only [Zincr]
          rw [hzget, if_pos hpos, if_neg hover]
        right
        refine ⟨s + step.toNat, hnew, ?_⟩
        show (match Zincr (zCanon name member s) name member step with
          | .ok p => p.1
          | .error _ => zCanon name member s) =
          zCanon name member (s + step.toNat)
        rw [hok]
        exact zbatch_canon name member hs hnew hne
    · have hneg : step < 0 := by omega
      have ht1 : 1 ≤ (-step).toNat := by omega
      by_cases hunder : s < (-step).toNat
      · have herr : Zincr (zCanon name member s) name member step =
            .error "overflow number" := by
          simp only [Zincr]
          rw [hzget, if_neg hpos, if_pos hunder]
        right
        refine ⟨s, hs, ?_⟩
        show (match Zincr (zCanon name member s) name member step with
          | .ok p => p.1
          | .error _ => zCanon name member s) = zCanon name member s
        rw [herr]
      · have hne : s - (-step).toNat ≠ s := by omega
        have hb : s - (-step).toNat < 2 ^ 64 := by omega
        have hok : Zincr (zCanon name member s) name member step =
            .ok (writeBatch (zCanon name member s)
              [.bput (zscoreKey name member)
                (Uint64ToBytes (s - (-step).toNat)),
               .bput (zokeyB name (Uint64ToBytes (s - (-step).toNat)) member)
                [],
               .bdel (zokeyB name (Uint64ToBytes s) member)],
              s - (-step).toNat) := by
          simp only [Zincr]
          rw [hzget, if_neg hpos, if_neg hunder]
        right
        refine ⟨s - (-step).toNat, hb, ?_⟩
        show (match Zincr (zCanon name member s) name member step with
          | .ok p => p.1
          | .error _ => zCanon name member s) =
          zCanon name member (s - (-step).toNat)
        rw [hok]
        exact zbatch_canon name member hs hb hne

theorem zdel_zstate (name member : Bytes) {st : Store}
    (h : ZState name member st) :
    ZState name member (applyZOp name member st .zdel) := by
  rcases h with rfl | ⟨s, hs, rfl⟩
  · left
    rfl
  · have hget := zCanon_sget name member s
    have hok : Zdel (zCanon name member s) name member =
        .ok (writeBatch (zCanon name member s)
          [.bdel (zscoreKey name member),
           .bdel (zokeyB name (Uint64ToBytes s) member)]) := by
      simp only [Zdel]
      rw [hget]
    left
    show (match Zdel (zCanon name member s) name member with
      | .ok st' => st'
      | .error _ => zCanon name member s) = []
    rw [hok]
    show sdel (sdel (zCanon name member s) (zscoreKey name member))
      (zokeyB name (Uint64ToBytes s) member) = []
    rw [zCanon, sdel_head rfl, sdel_head rfl]

/-! ### Claim C1: the invariant on reachable states -/

theorem isOrderKeyFor_dk (name member : Bytes) :
    isOrderKeyFor name member (zscoreKey name member) = false := by
  rw [isOrderKeyFor]
  have h : decide ((zscoreKey name member).take
      (Bconcat [zetKeyPfx, name, splitChar]).length =
      Bconcat [zetKeyPfx, name, splitChar]) = false := by
    rw [decide_eq_false_iff_not]
    intro habs
    rw [okp_snoc] at habs
    have hlen : ((31 :: name) ++ [28]).length = name.length + 1 + 1 := by
      simp
    rw [dkey_eq, hlen, List.take_succ_cons,
      show (31 :: name) ++ [28] = 31 :: (name ++ [28]) from rfl] at habs
    exact absurd (List.cons.inj habs).1 (by omega)
  rw [h]
  rfl

theorem zstate_invariant {name member : Bytes} {st : Store}
    (h : ZState name member st) : zsetInvariant st name member = true := by
  rcases h with rfl | ⟨s, hs, rfl⟩
  · rfl
  · have hget := zCanon_sget name member s
    simp only [zsetInvariant]
    rw [hget]
    simp only [Option.elim]
    rw [BytesToUint64_Uint64ToBytes hs]
    rw [Bool.and_eq_true]
    constructor
    · rw [decide_eq_true_eq]
      show zokeyB name (Uint64ToBytes s) member ∈
        (zCanon name member s).map Prod.fst
      rw [zCanon]
      simp
    · rw [zCanon]
      simp only [List.map_cons, List.map_nil, List.all_cons, List.all_nil,
        Bool.and_true]
      rw [Bool.and_eq_true]
      constructor
      · rw [isOrderKeyFor_dk name member]
        rfl
      · simp

/-! ### Claim C1: verdicts -/

/-- Claim C1 counterexample: a single `Zmset` whose pair list mentions
member `[107]` twice with scores 1 and 2 leaves *two* order-index entries
(each iteration reads the same stale old score from the unwritten store);
and `Zincr` with `step = 0` deletes, inside its own batch, the very
order-index entry it just put (the batch replays put-then-delete on the
same key), leaving a direct entry with no order entry.  Both final states
violate the invariant. -/
theorem zset_dual_index_counterexample :
    ((Zmset [] [122] [[107], Uint64ToBytes 1, [107],
        Uint64ToBytes 2]).toOption.map
      (fun st => zsetInvariant st [122] [107])) = some false ∧
    ((Zincr (Zset [] [122] [107] 5) [122] [107] 0).toOption.map
      (fun p => zsetInvariant p.1 [122] [107])) = some false := by
  decide

theorem zstate_apply_ops (name member : Bytes) :
    ∀ (ops : List ZOp) (st : Store), ZState name member st →
      (∀ op ∈ ops, GoodZOp op) →
      ZState name member (applyZOps name member st ops) := by
  intro ops
  induction ops with
  | nil =>
    intro st h _
    exact h
  | cons op rest ih =>
    intro st h hops
    show ZState name member
      (applyZOps name member (applyZOp name member st op) rest)
    refine ih _ ?_ (fun o ho => hops o (List.mem_cons_of_mem _ ho))
    have hop := hops op (List.mem_cons_self _ _)
    cases op with
    | zset v => exact zset_zstate name member h v hop
    | zincr s => exact zincr_zstate name member h s hop.1 hop.2.1 hop.2.2
    | zdel => exact zdel_zstate name member h

/-- Claim C1 as amended: for any sequence of `Zset`/`Zincr`/`Zdel` calls
on a single `(name, member)` starting from the empty store — with `uint64`
set values and nonzero `int64` increment steps — after every mutation the
direct index and the order index agree: exactly one order-index entry for
`(name, member)` exists, carrying the current direct score, when the
member is present, and none when absent.  (A duplicated member inside one
`Zmset`, or a zero-step `Zincr`, violates this, per the counterexample.) -/
theorem zset_dual_index_spec (name member : Bytes) (ops : List ZOp)
    (hops : ∀ op ∈ ops, GoodZOp op) :
    zsetInvariant (applyZOps name member [] ops) name member = true :=
  zstate_invariant
    (zstate_apply_ops name member ops [] (Or.inl rfl) hops)

/-- Witness for C1 on the sequence set 5, incr 3, del, set 7. -/
theorem zset_dual_index_spec_witness :
    (∀ op ∈ [ZOp.zset 5, ZOp.zincr 3, ZOp.zdel, ZOp.zset 7], GoodZOp op) ∧
      zsetInvariant (applyZOps [122] [107] []
        [ZOp.zset 5, ZOp.zincr 3, ZOp.zdel, ZOp.zset 7]) [122] [107] =
        true := by
  have hops : ∀ op ∈ [ZOp.zset 5, ZOp.zincr 3, ZOp.zdel, ZOp.zset 7],
      GoodZOp op := by
    intro op hop
    rcases List.mem_cons.1 hop with rfl | hop
    · show (5 : Nat) < 2 ^ 64
      norm_num
    · rcases List.mem_cons.1 hop with rfl | hop
      · exact ⟨by norm_num, by norm_num, by norm_num⟩
      · rcases List.mem_cons.1 hop with rfl | hop
        · trivial
        · rcases List.mem_cons.1 hop with rfl | hop
          · show (7 : Nat) < 2 ^ 64
            norm_num
          · simp at hop
  exact ⟨hops, zset_dual_index_spec [122] [107] _ hops⟩

end Sharon
